import Mathlib

/-!
# Zilliqa transaction block codec

A shallow embedding of `src/libData/BlockData/Block/TxBlock.cpp`, and of the two port
redirection methods of `src/depends/NAT/nat.cpp`.

* `std::vector<unsigned char>` is a `List Byte`, `Byte = Fin 256`.
* `unsigned int` / `uint32_t` values are natural numbers; every place where the
  C++ arithmetic is carried out in 32 bits is reduced with `u32`.
* The header (`TxBlockHeader`), the base block (`BlockBase`, which owns the
  co-signatures) and the number codec (`SetNumber` / `GetNumber`) live in other
  translation units.  They are the fields of `Externals`.
* `Serialize` has no `try`; an exception raised by `vector::at` leaves it as
  `threw`.  An access the C++ standard leaves undefined (`operator[]` or
  `std::copy` outside the vector) is the outcome `undefined`.
* `Deserialize` is wrapped in `try { } catch (std::exception)`.  The external
  decoders return `none` when they raise.  `std::copy` from the source buffer is
  unchecked in the source; reads are total here (a byte outside the buffer reads
  as `0`) and every access is appended to a trace so that its range can be
  inspected.
* The comparison operators of the header and of `MicroBlockHashSet` are the fields of
  `Orderings`; `std::vector`'s `<` is `vectorLt`.
* In `NAT`, the answers of the miniupnpc library and of `rand` are the fields of
  `NAT.UPnP`; the requests sent to the router are recorded.
-/

namespace Zilliqa

/-- One `unsigned char`. -/
abbrev Byte := Fin 256

/-- Reduction of a natural number to an `unsigned int` (32 bits). -/
def u32 (n : Nat) : Nat := n % 4294967296

/-- Reduction of an integer to a two's complement `int` (32 bits). -/
def i32 (x : Int) : Int := (x + 2147483648) % 4294967296 - 2147483648

/-- Modelled from the spec: the constant `TRAN_HASH_SIZE` is declared outside
`TxBlock.cpp`; the spec gives 32 bytes for `txRootHash`. -/
def TRAN_HASH_SIZE : Nat := 32

/-- Modelled from the spec: the constant `STATE_HASH_SIZE` is declared outside
`TxBlock.cpp`; the spec gives 32 bytes for `stateDeltaHash`. -/
def STATE_HASH_SIZE : Nat := 32

/-- The value of `sizeof(uint32_t)`. -/
def SIZEOF_UINT32 : Nat := 4

/-- A 32-byte digest (`TxnHash`, `StateHash`); `bytes` is what `asArray()` exposes. -/
structure Hash where
  bytes : List Byte
  size_eq : bytes.length = 32
deriving DecidableEq

/-- Modelled from the spec: `MicroBlockHashSet` is declared outside `TxBlock.cpp`;
the spec describes it as a pair of 32-byte digests with byte-wise equality. -/
structure MicroBlockHashSet where
  m_txRootHash : Hash
  m_stateDeltaHash : Hash
deriving DecidableEq

/-- The collaborators of `TxBlock.cpp` that are defined in other files: the header
type `H`, the co-signature type `E` held by `BlockBase`, and the number codec. -/
structure Externals (H E : Type) where
  /-- The constant `TxBlockHeader::SIZE`. -/
  SIZE : Nat
  /-- The default-constructed `TxBlockHeader`. -/
  headerDefault : H
  /-- The method `TxBlockHeader::GetNumMicroBlockHashes`. -/
  GetNumMicroBlockHashes : H → Nat
  /-- The bytes `TxBlockHeader::Serialize` stores at the offset it is given. -/
  headerBytes : H → List Byte
  /-- The method `TxBlockHeader::Deserialize` on a fresh header: `none` when it raises,
  otherwise its return value and the header it leaves behind. -/
  headerDeserialize : List Byte → Nat → Option (Int × H)
  /-- The header's `operator==`. -/
  headerEq : H → H → Bool
  /-- The bytes `SetNumber<uint32_t>(dst, off, v, sizeof(uint32_t))` stores at `off`. -/
  numberBytes : Nat → List Byte
  /-- The call `GetNumber<uint32_t>(src, off, sizeof(uint32_t))`: `none` when it raises. -/
  GetNumber : List Byte → Nat → Option Nat
  /-- The default-constructed co-signatures of `BlockBase`. -/
  cosigsDefault : E
  /-- The method `BlockBase::GetSerializedSize`. -/
  baseSize : E → Nat
  /-- The bytes `BlockBase::Serialize` stores at the offset it is given. -/
  baseBytes : E → List Byte
  /-- The method `BlockBase::Deserialize`: `none` when it raises, otherwise its return
  value and the co-signatures it leaves behind. -/
  baseDeserialize : E → List Byte → Nat → Option (Int × E)

/-- The contracts the spec states for the collaborators: fixed widths of what the
encoders store, and decoders that invert the encoders on the bytes they are given. -/
structure Externals.Lawful {H E : Type} (X : Externals H E) : Prop where
  headerBytes_length : ∀ h, (X.headerBytes h).length = X.SIZE
  numberBytes_length : ∀ v, (X.numberBytes v).length = 4
  baseBytes_length : ∀ e, (X.baseBytes e).length = X.baseSize e
  headerDeserialize_bytes : ∀ src off h,
    (src.drop off).take X.SIZE = X.headerBytes h → X.headerDeserialize src off = some (0, h)
  GetNumber_bytes : ∀ src off v, v < 4294967296 →
    (src.drop off).take 4 = X.numberBytes v → X.GetNumber src off = some v
  baseDeserialize_bytes : ∀ e0 src off e,
    (src.drop off).take (X.baseSize e) = X.baseBytes e → X.baseDeserialize e0 src off = some (0, e)
  headerEq_refl : ∀ h, X.headerEq h h = true

/-- The data members of `TxBlock`; `m_cosigs` is the member inherited from `BlockBase`. -/
structure TxBlock (H E : Type) where
  m_header : H
  m_isMicroBlockEmpty : List Bool
  m_microBlockHashes : List MicroBlockHashSet
  m_shardIDs : List Nat
  m_cosigs : E

/-! ## Buffer primitives -/

/-- The call `v.resize(n)` of `std::vector<unsigned char>`. -/
def resize (v : List Byte) (n : Nat) : List Byte :=
  v.take n ++ List.replicate (n - v.length) 0

/-- Replace the bytes of `dst` at `off ..< off + bs.length` by `bs`. -/
def overlay (dst : List Byte) (off : Nat) (bs : List Byte) : List Byte :=
  dst.take off ++ bs ++ dst.drop (off + bs.length)

/-- Modelled from the spec: the external encoders (`TxBlockHeader::Serialize`,
`SetNumber`, `BlockBase::Serialize`) are not in `TxBlock.cpp`; the spec describes them
as writing their bytes at the given offset of a growable buffer. -/
def writeAt (dst : List Byte) (off : Nat) (bs : List Byte) : List Byte :=
  overlay (if dst.length < off + bs.length then resize dst (off + bs.length) else dst) off bs

/-- The call `std::copy(bs.begin(), bs.end(), dst.begin() + off)`: defined only when
the destination range lies inside `dst`. -/
def copyAt (dst : List Byte) (off : Nat) (bs : List Byte) : Option (List Byte) :=
  if off + bs.length ≤ dst.length then some (overlay dst off bs) else none

/-- The bytes `std::copy(src.begin() + off, src.begin() + off + n, ...)` delivers, with
total indexing: a position outside `src` reads as `0`. -/
def readBytes (src : List Byte) (off n : Nat) : List Byte :=
  (List.range n).map fun k => src.getD (off + k) 0

/-- The digest `std::copy` fills from `src` at `off`. -/
def readHash (src : List Byte) (off : Nat) : Hash :=
  ⟨readBytes src off 32, by simp [readBytes]⟩

namespace TxBlock

variable {H E : Type}

/-! ## Emptiness bitmap -/

/-- The method `TxBlock::SerializeIsMicroBlockEmpty`: `int ret = 0;` then, for
`int i = size() - 1` down to `0`, `ret = 2 * ret + m_isMicroBlockEmpty[i]`; the result
is converted to `uint32_t`. -/
def SerializeIsMicroBlockEmpty (bits : List Bool) : Nat :=
  let i0 : Int := i32 ((bits.length : Int) - 1)
  let ret : Int := (bits.take (i0 + 1).toNat).foldr (fun b ret => i32 (2 * ret + (b.toNat : Int))) 0
  (ret % 4294967296).toNat

/-- The method `TxBlock::DeserializeIsMicroBlockEmpty`, with the header's count as
first argument: `count` times, push `(bool)(arg % 2)` and halve `arg`. -/
def DeserializeIsMicroBlockEmpty : Nat → Nat → List Bool
  | 0, _ => []
  | count + 1, arg => (arg % 2 != 0) :: DeserializeIsMicroBlockEmpty count (arg / 2)

/-! ## Size -/

/-- The method `TxBlock::GetSerializedSize`; the sum is returned as `unsigned int`. -/
def GetSerializedSize (X : Externals H E) (b : TxBlock H E) : Nat :=
  u32 (X.SIZE + SIZEOF_UINT32
    + b.m_microBlockHashes.length * (TRAN_HASH_SIZE + STATE_HASH_SIZE + SIZEOF_UINT32)
    + X.baseSize b.m_cosigs)

/-! ## Serialize -/

/-- The buffer growth at the start of `TxBlock::Serialize`:
`size_remaining = dst.size() - offset` as `unsigned int`, and
`dst.resize(size_needed + offset)` when `size_remaining < size_needed`. -/
def resizeStep (dst : List Byte) (offset size_needed : Nat) : List Byte :=
  let size_remaining : Nat := (((dst.length : Int) - (offset : Int)) % 4294967296).toNat
  if size_remaining < size_needed then resize dst (u32 (size_needed + offset)) else dst

/-- How the shard-entry loop of `Serialize` ends. `writes` lists the ranges
`(offset, length)` stored so far. -/
inductive EntriesOutcome where
  | done (dst : List Byte) (curOffset : Nat) (writes : List (Nat × Nat))
  | threw (dst : List Byte) (writes : List (Nat × Nat))
  | undefined
deriving DecidableEq

/-- The loop `for (i = 0; i < m_header.GetNumMicroBlockHashes(); i++)` of `Serialize`;
the first argument is the number of iterations left. -/
def serializeEntries (X : Externals H E) (b : TxBlock H E) :
    Nat → Nat → Nat → List Byte → List (Nat × Nat) → EntriesOutcome
  | 0, _, curOffset, dst, writes => .done dst curOffset writes
  | n + 1, i, curOffset, dst, writes =>
    match b.m_shardIDs[i]? with
    | none => .undefined
    | some shardID =>
      let dst1 := writeAt dst curOffset (X.numberBytes shardID)
      let writes1 := writes ++ [(curOffset, (X.numberBytes shardID).length)]
      let curOffset1 := u32 (curOffset + SIZEOF_UINT32)
      match b.m_microBlockHashes[i]? with
      | none => .threw dst1 writes1
      | some hs =>
        match copyAt dst1 curOffset1 hs.m_txRootHash.bytes with
        | none => .undefined
        | some dst2 =>
          let writes2 := writes1 ++ [(curOffset1, hs.m_txRootHash.bytes.length)]
          let curOffset2 := u32 (curOffset1 + TRAN_HASH_SIZE)
          match copyAt dst2 curOffset2 hs.m_stateDeltaHash.bytes with
          | none => .undefined
          | some dst3 =>
            let writes3 := writes2 ++ [(curOffset2, hs.m_stateDeltaHash.bytes.length)]
            let curOffset3 := u32 (curOffset2 + STATE_HASH_SIZE)
            serializeEntries X b n (i + 1) curOffset3 dst3 writes3

/-- How `TxBlock::Serialize` ends: the buffer, the returned size and the ranges stored. -/
inductive SerializeOutcome where
  | returned (dst : List Byte) (ret : Nat) (writes : List (Nat × Nat))
  | threw (dst : List Byte) (writes : List (Nat × Nat))
  | undefined
deriving DecidableEq

/-- The method `TxBlock::Serialize`. The warning logged when the header's count differs
from `m_microBlockHashes.size()` has no effect on the control flow. -/
def Serialize (X : Externals H E) (b : TxBlock H E) (dst : List Byte) (offset : Nat) :
    SerializeOutcome :=
  let size_needed := GetSerializedSize X b
  let dst0 := resizeStep dst offset size_needed
  let dst1 := writeAt dst0 offset (X.headerBytes b.m_header)
  let writes1 := [(offset, (X.headerBytes b.m_header).length)]
  let curOffset := u32 (offset + X.SIZE)
  let bitmap := X.numberBytes (SerializeIsMicroBlockEmpty b.m_isMicroBlockEmpty)
  let dst2 := writeAt dst1 curOffset bitmap
  let writes2 := writes1 ++ [(curOffset, bitmap.length)]
  let curOffset1 := u32 (curOffset + SIZEOF_UINT32)
  match serializeEntries X b (X.GetNumMicroBlockHashes b.m_header) 0 curOffset1 dst2 writes2 with
  | .undefined => .undefined
  | .threw dst3 writes3 => .threw dst3 writes3
  | .done dst3 curOffset2 writes3 =>
    .returned (writeAt dst3 curOffset2 (X.baseBytes b.m_cosigs)) size_needed
      (writes3 ++ [(curOffset2, (X.baseBytes b.m_cosigs).length)])

/-- The number of bytes stored by a list of writes. -/
def bytesWritten (writes : List (Nat × Nat)) : Nat := (writes.map Prod.snd).sum

/-! ## Deserialize -/

/-- One access of `Deserialize` to the source buffer: a call of an external decoder at
an offset, or a `std::copy` of `len` bytes starting at `off`. -/
inductive Access where
  | header (off : Nat)
  | number (off : Nat)
  | copy (off len : Nat)
  | base (off : Nat)
deriving DecidableEq

/-- Whether an access stays inside a buffer of `size` bytes: a `std::copy` of `len` bytes
at `off` and a 4-byte number at `off` must end at or before `size`; the calls of the
header and envelope decoders, whose extent is decided elsewhere, are not constrained. -/
def Access.inBounds (size : Nat) : Access → Bool
  | .copy off len => decide (off + len ≤ size)
  | .number off => decide (off + SIZEOF_UINT32 ≤ size)
  | .header _ => true
  | .base _ => true

/-- The state the shard-entry loop of `Deserialize` updates. -/
structure EntriesState where
  curOffset : Nat
  shardIDs : List Nat
  hashes : List MicroBlockHashSet
  trace : List Access
deriving DecidableEq

/-- The loop `for (i = 0; i < m_header.GetNumMicroBlockHashes(); i++)` of `Deserialize`;
the first argument is the number of iterations left. The result is `(true, s)` when
`GetNumber` raised in state `s`. -/
def deserializeEntries (X : Externals H E) (src : List Byte) :
    Nat → EntriesState → Bool × EntriesState
  | 0, s => (false, s)
  | n + 1, s =>
    match X.GetNumber src s.curOffset with
    | none => (true, { s with trace := s.trace ++ [.number s.curOffset] })
    | some shardID =>
      let curOffset1 := u32 (s.curOffset + SIZEOF_UINT32)
      let txRootHash := readHash src curOffset1
      let curOffset2 := u32 (curOffset1 + TRAN_HASH_SIZE)
      let stateDeltaHash := readHash src curOffset2
      let curOffset3 := u32 (curOffset2 + STATE_HASH_SIZE)
      deserializeEntries X src n
        { curOffset := curOffset3
          shardIDs := s.shardIDs ++ [shardID]
          hashes := s.hashes ++ [⟨txRootHash, stateDeltaHash⟩]
          trace := s.trace ++ [.number s.curOffset, .copy curOffset1 TRAN_HASH_SIZE,
            .copy curOffset2 TRAN_HASH_SIZE] }

/-- What `TxBlock::Deserialize` leaves behind: its return value, the receiver after the
call, and the accesses it made to the source buffer. -/
structure DeserializeResult (H E : Type) where
  ret : Int
  block : TxBlock H E
  trace : List Access

/-- The method `TxBlock::Deserialize` on the receiver `self`. The return value of
`BlockBase::Deserialize` is discarded by the source. -/
def Deserialize (X : Externals H E) (self : TxBlock H E) (src : List Byte) (offset : Nat) :
    DeserializeResult H E :=
  match X.headerDeserialize src offset with
  | none => ⟨-1, self, [.header offset]⟩
  | some (status, header) =>
    if status ≠ 0 then ⟨-1, self, [.header offset]⟩
    else
      let self1 := { self with m_header := header }
      let curOffset := u32 (offset + X.SIZE)
      match X.GetNumber src curOffset with
      | none => ⟨-1, self1, [.header offset, .number curOffset]⟩
      | some arg =>
        let self2 := { self1 with
          m_isMicroBlockEmpty := DeserializeIsMicroBlockEmpty (X.GetNumMicroBlockHashes header) arg }
        let curOffset1 := u32 (curOffset + SIZEOF_UINT32)
        match deserializeEntries X src (X.GetNumMicroBlockHashes header)
            ⟨curOffset1, self2.m_shardIDs, self2.m_microBlockHashes,
              [.header offset, .number curOffset]⟩ with
        | (true, s) =>
          ⟨-1, { self2 with m_shardIDs := s.shardIDs, m_microBlockHashes := s.hashes }, s.trace⟩
        | (false, s) =>
          let self3 := { self2 with m_shardIDs := s.shardIDs, m_microBlockHashes := s.hashes }
          match X.baseDeserialize self3.m_cosigs src s.curOffset with
          | none => ⟨-1, self3, s.trace ++ [.base s.curOffset]⟩
          | some (_, cosigs) =>
            ⟨0, { self3 with m_cosigs := cosigs }, s.trace ++ [.base s.curOffset]⟩

/-! ## Constructors and equality -/

/-- The default constructor `TxBlock::TxBlock()`. -/
def placeholder (X : Externals H E) : TxBlock H E :=
  ⟨X.headerDefault, [], [], [], X.cosigsDefault⟩

/-- The constructor `TxBlock::TxBlock(src, offset)`: `Deserialize` on a fresh block; a
failure is logged and the block is kept as it is. -/
def fromBytes (X : Externals H E) (src : List Byte) (offset : Nat) : TxBlock H E :=
  (Deserialize X (placeholder X) src offset).block

/-- The five-argument constructor; the count check only logs a warning. -/
def construct (header : H) (isMicroBlockEmpty : List Bool)
    (microBlockHashes : List MicroBlockHashSet) (shardIDs : List Nat) (cosigs : E) :
    TxBlock H E :=
  ⟨header, isMicroBlockEmpty, microBlockHashes, shardIDs, cosigs⟩

/-- The method `TxBlock::operator==`: header equality and element-wise equality of the
hash-pair vectors. -/
def eq (X : Externals H E) (a b : TxBlock H E) : Bool :=
  X.headerEq a.m_header b.m_header && decide (a.m_microBlockHashes = b.m_microBlockHashes)

end TxBlock

/-! ## Ordering -/

/-- The orderings `TxBlock.cpp` takes from other files: the header's `operator<` and
`operator>`, and the `operator<` of `MicroBlockHashSet` that `std::vector` compares
elements with. -/
structure Orderings (H : Type) where
  headerLt : H → H → Bool
  headerGt : H → H → Bool
  hashLt : MicroBlockHashSet → MicroBlockHashSet → Bool

/-- The assumption of the ordering claims: the header's `<` is a strict total order with
`>` its converse, and the hash pair's `<` is a strict total order. -/
structure Orderings.StrictTotal {H : Type} (O : Orderings H) : Prop where
  headerGt_eq : ∀ x y, O.headerGt x y = O.headerLt y x
  headerLt_irrefl : ∀ x, O.headerLt x x = false
  headerLt_trans : ∀ x y z, O.headerLt x y = true → O.headerLt y z = true →
    O.headerLt x z = true
  headerLt_total : ∀ x y, O.headerLt x y = false → O.headerLt y x = false → x = y
  hashLt_irrefl : ∀ p, O.hashLt p p = false
  hashLt_trans : ∀ p q r, O.hashLt p q = true → O.hashLt q r = true → O.hashLt p r = true
  hashLt_total : ∀ p q, O.hashLt p q = false → O.hashLt q p = false → p = q

/-- The `operator<` of `std::vector`, that is `std::lexicographical_compare` with the
element's `<`. -/
def vectorLt {α : Type} (lt : α → α → Bool) : List α → List α → Bool
  | [], [] => false
  | [], _ :: _ => true
  | _ :: _, [] => false
  | x :: xs, y :: ys => if lt x y then true else if lt y x then false else vectorLt lt xs ys

/-- The `operator>` of `std::vector`: `a > b` is `b < a`. -/
def vectorGt {α : Type} (lt : α → α → Bool) (a b : List α) : Bool := vectorLt lt b a

namespace TxBlock

variable {H E : Type}

/-- The method `TxBlock::operator<`. -/
def lt (O : Orderings H) (a b : TxBlock H E) : Bool :=
  if O.headerLt a.m_header b.m_header then true
  else if O.headerGt a.m_header b.m_header then false
  else if vectorLt O.hashLt a.m_microBlockHashes b.m_microBlockHashes then true
  else if vectorGt O.hashLt a.m_microBlockHashes b.m_microBlockHashes then false
  else false

/-- The method `TxBlock::operator>`: `!((*this == block) || (*this < block))`. -/
def gt (X : Externals H E) (O : Orderings H) (a b : TxBlock H E) : Bool :=
  !(TxBlock.eq X a b || TxBlock.lt O a b)

/-- Whether the five-argument constructor logs its warning: the header's count differs
from `m_microBlockHashes.size()` and from `m_shardIDs.size()`. -/
def constructWarns (X : Externals H E) (header : H) (microBlockHashes : List MicroBlockHashSet)
    (shardIDs : List Nat) : Bool :=
  decide (X.GetNumMicroBlockHashes header ≠ microBlockHashes.length)
    && decide (X.GetNumMicroBlockHashes header ≠ shardIDs.length)

/-- Whether `Serialize` logs its warning: the header's count differs from
`m_microBlockHashes.size()`. -/
def SerializeWarns (X : Externals H E) (b : TxBlock H E) : Bool :=
  decide (X.GetNumMicroBlockHashes b.m_header ≠ b.m_microBlockHashes.length)

end TxBlock

/-! ## UPnP port forwarding (`src/depends/NAT/nat.cpp`) -/

namespace NAT

/-- The description string of a port mapping: the two literals the source passes, or any
other text a router reports. -/
inductive Description where
  | zilliqa
  | ethereum
  | other (tag : Nat)
deriving DecidableEq

/-- One request sent to the router through the miniupnpc library. -/
inductive Request where
  | AddPortMapping (extPort : Int) (inPort : Option Int) (desc : Description)
  | DeletePortMapping (extPort : Int)
  | GetPortMappingNumberOfEntries
  | GetGenericPortMappingEntry (index : Nat)
deriving DecidableEq

/-- The answers of the miniupnpc library and of `rand`, which are outside `nat.cpp`. Each
answer may depend on the requests sent before it. -/
structure UPnP where
  /-- The return value of `UPNP_AddPortMapping`: `0` on success. -/
  AddPortMapping : List Request → Int → Option Int → Description → Int
  /-- The value of the `i`-th call of `rand()`. -/
  rand : Nat → Nat
  /-- The count `UPNP_GetPortMappingNumberOfEntries` stores in `num`. -/
  GetPortMappingNumberOfEntries : List Request → Nat
  /-- The pair `atoi(extPort)`, `desc` that `UPNP_GetGenericPortMappingEntry` fills in. -/
  GetGenericPortMappingEntry : List Request → Nat → Int × Description

/-- The data members of `NAT` the two methods use; `m_reg` is a `std::set<int>`, kept as a
list without duplicates. -/
structure State where
  m_initialized : Bool
  m_reg : List Int
deriving DecidableEq

/-- The range test written in `addRedirect` and `removeRedirect`:
`_port < 0 && _port > 65535`. -/
def portGuard (_port : Int) : Bool := decide (_port < 0) && decide (_port > 65535)

/-- What `addRedirect` leaves behind: its return value, the object and the requests sent. -/
structure AddResult where
  ret : Int
  state : State
  requests : List Request
deriving DecidableEq

/-- Step 2 of `addRedirect`: up to `n` more attempts with a random external port, the
next one being attempt `i`. The result is the mapped port, if any, and the requests sent. -/
def tryRandom (U : UPnP) (_port : Int) : Nat → Nat → List Request → Option Int × List Request
  | 0, _, sent => (none, sent)
  | n + 1, i, sent =>
    let p : Int := ((U.rand i : Int) % (32768 - 1024)) + 1024
    let sent1 := sent ++ [.AddPortMapping p (some _port) .ethereum]
    if U.AddPortMapping sent p (some _port) .ethereum = 0 then (some p, sent1)
    else tryRandom U _port n (i + 1) sent1

/-- Step 3 of `addRedirect`, the search through the router's table: `n` entries left, the
next one being entry `i`. -/
def findMapped (U : UPnP) : Nat → Nat → List Request → Option Int × List Request
  | 0, _, sent => (none, sent)
  | n + 1, i, sent =>
    let sent1 := sent ++ [.GetGenericPortMappingEntry i]
    if (U.GetGenericPortMappingEntry sent i).2 = .zilliqa then
      (some (U.GetGenericPortMappingEntry sent i).1, sent1)
    else findMapped U n (i + 1) sent1

/-- The method `NAT::addRedirect`. -/
def addRedirect (U : UPnP) (s : State) (_port : Int) : AddResult :=
  if !s.m_initialized then ⟨-1, s, []⟩
  else if portGuard _port then ⟨-1, s, []⟩
  else
    let sent1 : List Request := [.AddPortMapping _port (some _port) .zilliqa]
    if U.AddPortMapping [] _port (some _port) .zilliqa = 0 then
      ⟨_port, { s with m_reg := s.m_reg.insert _port }, sent1⟩
    else
      match tryRandom U _port 10 0 sent1 with
      | (some p, sent2) => ⟨p, s, sent2⟩
      | (none, sent2) =>
        let sent3 := sent2 ++ [.AddPortMapping _port none .zilliqa]
        if U.AddPortMapping sent2 _port none .zilliqa ≠ 0 then ⟨0, s, sent3⟩
        else
          let sent4 := sent3 ++ [.GetPortMappingNumberOfEntries]
          match findMapped U (U.GetPortMappingNumberOfEntries sent3) 0 sent4 with
          | (some p, sent5) => ⟨p, { s with m_reg := s.m_reg.insert p }, sent5⟩
          | (none, sent5) => ⟨-1, s, sent5⟩

/-- The method `NAT::removeRedirect`: the object afterwards and the requests sent. -/
def removeRedirect (_U : UPnP) (s : State) (_port : Int) : State × List Request :=
  if !s.m_initialized then (s, [])
  else if portGuard _port then (s, [])
  else ({ s with m_reg := s.m_reg.erase _port }, [.DeletePortMapping _port])

end NAT

/-! ## Specification-side definitions -/

section Layout

open TxBlock

variable {H E : Type}

/-- The value of a bit sequence read least significant bit first. -/
def packBits : List Bool → Nat
  | [] => 0
  | b :: bs => b.toNat + 2 * packBits bs

/-- The bytes of one shard entry as the spec lays them out: shard id, then
`txRootHash`, then `stateDeltaHash`. -/
def entryBytes (X : Externals H E) (shardID : Nat) (hs : MicroBlockHashSet) : List Byte :=
  X.numberBytes shardID ++ hs.m_txRootHash.bytes ++ hs.m_stateDeltaHash.bytes

/-- The shard entries in index order, paired positionally. -/
def entriesBytes (X : Externals H E) : List Nat → List MicroBlockHashSet → List Byte
  | shardID :: shardIDs, hs :: hashes => entryBytes X shardID hs ++ entriesBytes X shardIDs hashes
  | _, _ => []

/-- The layout the spec gives for an encoded block. -/
def encode (X : Externals H E) (b : TxBlock H E) : List Byte :=
  X.headerBytes b.m_header ++ X.numberBytes (SerializeIsMicroBlockEmpty b.m_isMicroBlockEmpty)
    ++ entriesBytes X b.m_shardIDs b.m_microBlockHashes ++ X.baseBytes b.m_cosigs

end Layout

/-! ## A concrete instance of the collaborators -/

/-- The little-endian bytes of a 32-bit number. -/
def demoNumberBytes (v : Nat) : List Byte :=
  [Fin.ofNat (v % 256), Fin.ofNat (v / 256 % 256), Fin.ofNat (v / 65536 % 256),
    Fin.ofNat (v / 16777216 % 256)]

/-- The number read from four little-endian bytes at `off`; `0` when the buffer is too short. -/
def demoGetNumber (src : List Byte) (off : Nat) : Option Nat :=
  if off + 4 ≤ src.length then
    some ((src.getD off 0).val + 256 * (src.getD (off + 1) 0).val
      + 65536 * (src.getD (off + 2) 0).val + 16777216 * (src.getD (off + 3) 0).val)
  else some 0

/-- A one-byte codec: the value at `off`, or status `-1` and the fallback when `off` lies
outside the buffer. -/
def demoDecodeByte (fallback : Byte) (src : List Byte) (off : Nat) : Option (Int × Byte) :=
  if off < src.length then some (0, src.getD off 0) else some (-1, fallback)

/-- Collaborators with a one-byte header holding the shard-entry count, a one-byte
co-signature section and little-endian numbers. -/
def demo : Externals Byte Byte where
  SIZE := 1
  headerDefault := 0
  GetNumMicroBlockHashes h := h.val
  headerBytes h := [h]
  headerDeserialize := demoDecodeByte 0
  headerEq a b := decide (a = b)
  numberBytes := demoNumberBytes
  GetNumber := demoGetNumber
  cosigsDefault := 0
  baseSize _ := 1
  baseBytes e := [e]
  baseDeserialize := demoDecodeByte

/-- The order `std::vector` would give two byte sequences. -/
def bytesLt (a b : List Byte) : Bool := vectorLt (fun x y => decide (x < y)) a b

/-- Orderings for `demo`: headers by their count byte, hash pairs by the lexicographic
order of their bytes, `txRootHash` first. -/
def demoOrderings : Orderings Byte where
  headerLt a b := decide (a < b)
  headerGt a b := decide (a > b)
  hashLt p q := bytesLt (p.m_txRootHash.bytes ++ p.m_stateDeltaHash.bytes)
    (q.m_txRootHash.bytes ++ q.m_stateDeltaHash.bytes)

/-- A router that accepts every mapping and reports an empty table. -/
def acceptingRouter : NAT.UPnP where
  AddPortMapping _ _ _ _ := 0
  rand _ := 0
  GetPortMappingNumberOfEntries _ := 0
  GetGenericPortMappingEntry _ _ := (0, .other 0)

/-! ## Sample inputs -/

/-- The digest whose 32 bytes all equal `x`. -/
def hashOf (x : Byte) : Hash := ⟨List.replicate 32 x, List.length_replicate 32 x⟩

/-- A block with two shard entries. -/
def sampleBlock : TxBlock Byte Byte :=
  TxBlock.construct 2 [false, true] [⟨hashOf 1, hashOf 2⟩, ⟨hashOf 3, hashOf 4⟩] [3, 7] 9

/-- The encoding of `sampleBlock` under `demo`. -/
def sampleBytes : List Byte :=
  [2] ++ [2, 0, 0, 0] ++ [3, 0, 0, 0] ++ List.replicate 32 1 ++ List.replicate 32 2
    ++ [7, 0, 0, 0] ++ List.replicate 32 3 ++ List.replicate 32 4 ++ [9]

/-- A block whose header declares no shard entry yet holds one hash pair. -/
def mismatchedBlock : TxBlock Byte Byte :=
  TxBlock.construct 0 [] [⟨hashOf 1, hashOf 2⟩] [] 9

/-- A buffer whose header byte declares 33 shard entries, long enough for all of them. -/
def overflowBytes : List Byte := 33 :: List.replicate 2249 0

/-- A block whose header declares one shard entry yet holds two hash pairs and three
shard ids. -/
def oversizedBlock : TxBlock Byte Byte :=
  TxBlock.construct 1 [true] [⟨hashOf 1, hashOf 2⟩, ⟨hashOf 3, hashOf 4⟩] [3, 7, 8] 9

/-- A block whose header declares two shard entries yet holds one hash pair. -/
def undersizedBlock : TxBlock Byte Byte :=
  TxBlock.construct 2 [false, true] [⟨hashOf 1, hashOf 2⟩] [3, 7] 9

/-! ## Supporting lemmas -/

section Lemmas

open TxBlock

variable {H E : Type}

theorem packBits_lt (bits : List Bool) : packBits bits < 2 ^ bits.length := by
  induction bits with
  | nil => simp [packBits]
  | cons b bs ih =>
    have hb : b.toNat ≤ 1 := Bool.toNat_le b
    simp only [packBits, List.length_cons, pow_succ]
    omega

theorem packBits_eq_sum (bits : List Bool) :
    packBits bits = ∑ i in Finset.range bits.length, (bits.getD i false).toNat * 2 ^ i := by
  induction bits with
  | nil => simp [packBits]
  | cons b bs ih =>
    rw [List.length_cons, Finset.sum_range_succ', packBits, ih, Finset.mul_sum, Nat.add_comm]
    congr 1
    · exact Finset.sum_congr rfl fun i _ => by simp [pow_succ]; ring
    · simp

theorem foldr_i32_emod (bits : List Bool) :
    (bits.foldr (fun b ret => i32 (2 * ret + (b.toNat : Int))) 0) % 4294967296
      = (packBits bits : Int) % 4294967296 := by
  induction bits with
  | nil => simp [packBits]
  | cons b bs ih =>
    have key : ∀ (r : Int) (p d : Nat), r % 4294967296 = (p : Int) % 4294967296 →
        i32 (2 * r + (d : Int)) % 4294967296 = ((d + 2 * p : Nat) : Int) % 4294967296 := by
      intro r p d hr
      simp only [i32]
      push_cast
      omega
    exact key _ _ _ ih

theorem SerializeIsMicroBlockEmpty_eq_mod (bits : List Bool) (h : bits.length ≤ 2147483648) :
    SerializeIsMicroBlockEmpty bits = packBits bits % 4294967296 := by
  have htake : bits.take (i32 ((bits.length : Int) - 1) + 1).toNat = bits := by
    apply List.take_of_length_le
    simp only [i32]
    omega
  simp only [SerializeIsMicroBlockEmpty, htake, foldr_i32_emod]
  omega

theorem SerializeIsMicroBlockEmpty_eq_packBits (bits : List Bool) (h : bits.length ≤ 32) :
    SerializeIsMicroBlockEmpty bits = packBits bits := by
  rw [SerializeIsMicroBlockEmpty_eq_mod bits (by omega)]
  have h1 := packBits_lt bits
  have h2 : 2 ^ bits.length ≤ 2 ^ 32 := Nat.pow_le_pow_right (by norm_num) h
  have h3 : (2:Nat) ^ 32 = 4294967296 := by norm_num
  exact Nat.mod_eq_of_lt (by omega)

theorem DeserializeIsMicroBlockEmpty_packBits (bits : List Bool) :
    DeserializeIsMicroBlockEmpty bits.length (packBits bits) = bits := by
  induction bits with
  | nil => rfl
  | cons b bs ih =>
    have h1 : (b.toNat + 2 * packBits bs) / 2 = packBits bs := by
      have hb : b.toNat ≤ 1 := Bool.toNat_le b
      omega
    have h2 : ((b.toNat + 2 * packBits bs) % 2 != 0) = b := by
      cases b <;> simp [Nat.add_mod]
    simp only [List.length_cons, DeserializeIsMicroBlockEmpty, packBits, h1, h2, ih]

theorem u32_of_lt {n : Nat} (h : n < 4294967296) : u32 n = n := Nat.mod_eq_of_lt h

theorem overlay_append (p old q bs : List Byte) (off : Nat) (hp : p.length = off)
    (hold : old.length = bs.length) : overlay (p ++ old ++ q) off bs = p ++ bs ++ q := by
  subst hp
  simp [overlay, ← hold, List.take_append_of_le_length, List.drop_append_of_le_length]

theorem writeAt_append (p old q bs : List Byte) (off : Nat) (hp : p.length = off)
    (hold : old.length = bs.length) : writeAt (p ++ old ++ q) off bs = p ++ bs ++ q := by
  have hlen : ¬ (p ++ old ++ q).length < off + bs.length := by
    simp only [List.length_append]; omega
  rw [writeAt, if_neg hlen, overlay_append p old q bs off hp hold]

theorem copyAt_append (p old q bs : List Byte) (off : Nat) (hp : p.length = off)
    (hold : old.length = bs.length) : copyAt (p ++ old ++ q) off bs = some (p ++ bs ++ q) := by
  have hlen : off + bs.length ≤ (p ++ old ++ q).length := by
    simp only [List.length_append]; omega
  rw [copyAt, if_pos hlen, overlay_append p old q bs off hp hold]

theorem readBytes_append (p bs q : List Byte) (off n : Nat) (hp : p.length = off)
    (hn : bs.length = n) : readBytes (p ++ bs ++ q) off n = bs := by
  subst hp hn
  apply List.ext_getElem
  · simp [readBytes]
  · intro k h1 h2
    simp [readBytes, List.getElem?_append_right, List.getElem?_append_left, h2]

theorem exists_split (R : List Byte) (a : Nat) (h : a ≤ R.length) :
    ∃ R1 R2, R = R1 ++ R2 ∧ R1.length = a ∧ R2.length = R.length - a :=
  ⟨R.take a, R.drop a, by simp, by simp [h], by simp⟩

theorem bytesWritten_append (w1 w2 : List (Nat × Nat)) :
    bytesWritten (w1 ++ w2) = bytesWritten w1 + bytesWritten w2 := by
  simp [bytesWritten]

theorem serializeEntries_done (X : Externals H E) (hX : X.Lawful) (b : TxBlock H E) :
    ∀ (n i cur : Nat) (P R Q : List Byte) (writes : List (Nat × Nat)),
      i + n ≤ b.m_shardIDs.length → i + n ≤ b.m_microBlockHashes.length →
      P.length = cur → R.length = 68 * n → cur + 68 * n < 4294967296 →
      ∃ w, serializeEntries X b n i cur (P ++ R ++ Q) writes
          = .done (P ++ entriesBytes X ((b.m_shardIDs.drop i).take n)
              ((b.m_microBlockHashes.drop i).take n) ++ Q) (cur + 68 * n) (writes ++ w)
        ∧ bytesWritten w = 68 * n := by
  intro n
  induction n with
  | zero =>
    intro i cur P R Q writes _ _ _ hR _
    have hR0 : R = [] := List.eq_nil_of_length_eq_zero (by omega)
    subst hR0
    exact ⟨[], by simp [serializeEntries, entriesBytes], rfl⟩
  | succ n ih =>
    intro i cur P R Q writes hi hj hP hR hcur
    have hi1 : i < b.m_shardIDs.length := by omega
    have hj1 : i < b.m_microBlockHashes.length := by omega
    obtain ⟨R1, T1, rfl, hR1, hT1⟩ := exists_split R 4 (by omega)
    obtain ⟨R2, T2, rfl, hR2, hT2⟩ := exists_split T1 32 (by omega)
    obtain ⟨R3, T3, rfl, hR3, hT3⟩ := exists_split T2 32 (by omega)
    simp only [List.length_append] at hR hT1 hT2 hT3
    have hnb := hX.numberBytes_length (b.m_shardIDs[i])
    have htx := (b.m_microBlockHashes[i]).m_txRootHash.size_eq
    have hsd := (b.m_microBlockHashes[i]).m_stateDeltaHash.size_eq
    have e1 : P ++ (R1 ++ (R2 ++ (R3 ++ T3))) ++ Q = P ++ R1 ++ (R2 ++ (R3 ++ (T3 ++ Q))) := by
      simp
    have w1 := writeAt_append P R1 (R2 ++ (R3 ++ (T3 ++ Q))) (X.numberBytes b.m_shardIDs[i]) cur hP
      (by omega)
    have e2 : P ++ X.numberBytes b.m_shardIDs[i] ++ (R2 ++ (R3 ++ (T3 ++ Q)))
        = (P ++ X.numberBytes b.m_shardIDs[i]) ++ R2 ++ (R3 ++ (T3 ++ Q)) := by simp
    have w2 := copyAt_append (P ++ X.numberBytes b.m_shardIDs[i]) R2 (R3 ++ (T3 ++ Q))
      (b.m_microBlockHashes[i]).m_txRootHash.bytes (cur + 4)
      (by simp only [List.length_append]; omega) (by omega)
    have e3 : (P ++ X.numberBytes b.m_shardIDs[i]) ++ (b.m_microBlockHashes[i]).m_txRootHash.bytes
          ++ (R3 ++ (T3 ++ Q))
        = (P ++ X.numberBytes b.m_shardIDs[i] ++ (b.m_microBlockHashes[i]).m_txRootHash.bytes)
          ++ R3 ++ (T3 ++ Q) := by simp
    have w3 := copyAt_append
      (P ++ X.numberBytes b.m_shardIDs[i] ++ (b.m_microBlockHashes[i]).m_txRootHash.bytes) R3
      (T3 ++ Q) (b.m_microBlockHashes[i]).m_stateDeltaHash.bytes (cur + 4 + 32)
      (by simp only [List.length_append]; omega) (by omega)
    have e4 : (P ++ X.numberBytes b.m_shardIDs[i] ++ (b.m_microBlockHashes[i]).m_txRootHash.bytes)
          ++ (b.m_microBlockHashes[i]).m_stateDeltaHash.bytes ++ (T3 ++ Q)
        = (P ++ entryBytes X b.m_shardIDs[i] b.m_microBlockHashes[i]) ++ T3 ++ Q := by
      simp [entryBytes]
    obtain ⟨w, hw, hsum⟩ := ih (i + 1) (cur + 4 + 32 + 32)
      (P ++ entryBytes X b.m_shardIDs[i] b.m_microBlockHashes[i]) T3 Q
      (writes ++ [(cur, (X.numberBytes b.m_shardIDs[i]).length)]
        ++ [(cur + 4, (b.m_microBlockHashes[i]).m_txRootHash.bytes.length)]
        ++ [(cur + 4 + 32, (b.m_microBlockHashes[i]).m_stateDeltaHash.bytes.length)])
      (by omega) (by omega)
      (by simp only [List.length_append, entryBytes]; omega) (by omega) (by omega)
    refine ⟨[(cur, (X.numberBytes b.m_shardIDs[i]).length)]
        ++ [(cur + 4, (b.m_microBlockHashes[i]).m_txRootHash.bytes.length)]
        ++ [(cur + 4 + 32, (b.m_microBlockHashes[i]).m_stateDeltaHash.bytes.length)] ++ w, ?_, ?_⟩
    · rw [serializeEntries]
      simp only [List.getElem?_eq_getElem hi1, List.getElem?_eq_getElem hj1, SIZEOF_UINT32,
        TRAN_HASH_SIZE, STATE_HASH_SIZE]
      rw [u32_of_lt (by omega : cur + 4 < 4294967296),
        u32_of_lt (by omega : cur + 4 + 32 < 4294967296),
        u32_of_lt (by omega : cur + 4 + 32 + 32 < 4294967296)]
      rw [e1, w1, e2]
      simp only [w2]
      rw [e3]
      simp only [w3]
      rw [e4, hw]
      rw [List.drop_eq_getElem_cons hi1, List.drop_eq_getElem_cons hj1]
      simp only [List.take_succ_cons, entriesBytes, List.append_assoc]
      congr 1
      omega
    · simp only [bytesWritten_append, hsum]
      simp only [bytesWritten, List.map_cons, List.map_nil, List.sum_cons, List.sum_nil]
      omega

theorem entriesBytes_length (X : Externals H E) (hX : X.Lawful) :
    ∀ (ids : List Nat) (hss : List MicroBlockHashSet), ids.length = hss.length →
      (entriesBytes X ids hss).length = 68 * ids.length := by
  intro ids
  induction ids with
  | nil => intro hss _; cases hss <;> simp [entriesBytes]
  | cons v ids ih =>
    intro hss h
    cases hss with
    | nil => simp at h
    | cons hs hss =>
      simp only [List.length_cons, Nat.add_right_cancel_iff] at h
      simp only [entriesBytes, entryBytes, List.length_append, hX.numberBytes_length,
        hs.m_txRootHash.size_eq, hs.m_stateDeltaHash.size_eq, ih hss h, List.length_cons]
      omega

theorem take_drop_append (p bs q : List Byte) (off n : Nat) (hp : p.length = off)
    (hn : bs.length = n) : ((p ++ bs ++ q).drop off).take n = bs := by
  subst hp hn
  simp

theorem Hash.eq_of_bytes {a b : Hash} (h : a.bytes = b.bytes) : a = b := by
  cases a; cases b; simp only [Hash.mk.injEq]; exact h

theorem readHash_append (p q : List Byte) (h : Hash) (off : Nat) (hp : p.length = off) :
    readHash (p ++ h.bytes ++ q) off = h :=
  Hash.eq_of_bytes (readBytes_append p h.bytes q off 32 hp h.size_eq)

theorem deserializeEntries_entriesBytes (X : Externals H E) (hX : X.Lawful) :
    ∀ (ids : List Nat) (hss : List MicroBlockHashSet) (s : EntriesState) (P Q : List Byte),
      ids.length = hss.length → (∀ v ∈ ids, v < 4294967296) → P.length = s.curOffset →
      s.curOffset + 68 * ids.length < 4294967296 →
      ∃ tr, deserializeEntries X (P ++ entriesBytes X ids hss ++ Q) ids.length s
        = (false, ⟨s.curOffset + 68 * ids.length, s.shardIDs ++ ids, s.hashes ++ hss,
            s.trace ++ tr⟩) := by
  intro ids
  induction ids with
  | nil =>
    intro hss s P Q h _ _ _
    exact ⟨[], by simp [deserializeEntries]; cases hss <;> simp_all⟩
  | cons v ids ih =>
    intro hss s P Q h hv hP hcur
    cases hss with
    | nil => simp at h
    | cons hs hss =>
      simp only [List.length_cons, Nat.add_right_cancel_iff] at h
      simp only [List.length_cons] at hcur
      have hnb := hX.numberBytes_length v
      have htx := hs.m_txRootHash.size_eq
      have hsd := hs.m_stateDeltaHash.size_eq
      have e1 : P ++ entriesBytes X (v :: ids) (hs :: hss) ++ Q
          = P ++ X.numberBytes v
            ++ (hs.m_txRootHash.bytes ++ (hs.m_stateDeltaHash.bytes ++ (entriesBytes X ids hss ++ Q))) := by
        simp [entriesBytes, entryBytes]
      have e2 : P ++ entriesBytes X (v :: ids) (hs :: hss) ++ Q
          = (P ++ X.numberBytes v) ++ hs.m_txRootHash.bytes
            ++ (hs.m_stateDeltaHash.bytes ++ (entriesBytes X ids hss ++ Q)) := by
        simp [entriesBytes, entryBytes]
      have e3 : P ++ entriesBytes X (v :: ids) (hs :: hss) ++ Q
          = (P ++ X.numberBytes v ++ hs.m_txRootHash.bytes) ++ hs.m_stateDeltaHash.bytes
            ++ (entriesBytes X ids hss ++ Q) := by
        simp [entriesBytes, entryBytes]
      have e4 : P ++ entriesBytes X (v :: ids) (hs :: hss) ++ Q
          = (P ++ entryBytes X v hs) ++ entriesBytes X ids hss ++ Q := by
        simp [entriesBytes, entryBytes]
      have g1 : X.GetNumber (P ++ entriesBytes X (v :: ids) (hs :: hss) ++ Q) s.curOffset = some v := by
        apply hX.GetNumber_bytes _ _ _ (hv v (by simp))
        rw [e1]
        exact take_drop_append _ _ _ _ _ hP hnb
      have g2 : readHash (P ++ entriesBytes X (v :: ids) (hs :: hss) ++ Q) (s.curOffset + 4)
          = hs.m_txRootHash := by
        rw [e2]
        exact readHash_append _ _ _ _ (by simp only [List.length_append]; omega)
      have g3 : readHash (P ++ entriesBytes X (v :: ids) (hs :: hss) ++ Q) (s.curOffset + 4 + 32)
          = hs.m_stateDeltaHash := by
        rw [e3]
        exact readHash_append _ _ _ _ (by simp only [List.length_append]; omega)
      obtain ⟨tr, htr⟩ := ih hss
        ⟨s.curOffset + 4 + 32 + 32, s.shardIDs ++ [v], s.hashes ++ [hs],
          s.trace ++ [.number s.curOffset, .copy (s.curOffset + 4) TRAN_HASH_SIZE,
            .copy (s.curOffset + 4 + 32) TRAN_HASH_SIZE]⟩
        (P ++ entryBytes X v hs) Q h (fun w hw => hv w (by simp [hw]))
        (by simp only [List.length_append, entryBytes]; omega) (by simp only; omega)
      simp only [TRAN_HASH_SIZE] at htr
      refine ⟨[.number s.curOffset, .copy (s.curOffset + 4) TRAN_HASH_SIZE,
            .copy (s.curOffset + 4 + 32) TRAN_HASH_SIZE] ++ tr, ?_⟩
      rw [List.length_cons, deserializeEntries]
      simp only [g1, SIZEOF_UINT32, STATE_HASH_SIZE, TRAN_HASH_SIZE]
      rw [u32_of_lt (by omega : s.curOffset + 4 < 4294967296),
        u32_of_lt (by omega : s.curOffset + 4 + 32 < 4294967296),
        u32_of_lt (by omega : s.curOffset + 4 + 32 + 32 < 4294967296), g2, g3]
      rw [e4, htr]
      simp only [List.append_assoc, List.singleton_append, List.cons_append, List.nil_append,
        Prod.mk.injEq, EntriesState.mk.injEq, true_and, and_true, TRAN_HASH_SIZE]
      omega

theorem resizeStep_take (dst : List Byte) (offset size : Nat) (h1 : offset ≤ dst.length)
    (h2 : offset + size < 4294967296) :
    (resizeStep dst offset size).take offset = dst.take offset := by
  unfold resizeStep
  simp only
  split
  · rw [u32_of_lt (by omega), resize, List.take_append_of_le_length, List.take_take]
    · congr 1; omega
    · simp only [List.length_take]; omega
  · rfl

theorem resizeStep_length (dst : List Byte) (offset size : Nat) (h1 : offset ≤ dst.length)
    (h2 : offset + size < 4294967296) :
    offset + size ≤ (resizeStep dst offset size).length := by
  unfold resizeStep
  simp only
  split
  · rw [u32_of_lt (by omega), resize]
    simp only [List.length_append, List.length_take, List.length_replicate]
    omega
  · omega

theorem resizeStep_split (dst : List Byte) (offset size : Nat) (h1 : offset ≤ dst.length)
    (h2 : offset + size < 4294967296) :
    ∃ R Q, resizeStep dst offset size = dst.take offset ++ R ++ Q ∧ R.length = size
      ∧ Q = (resizeStep dst offset size).drop (offset + size) := by
  have ht := resizeStep_take dst offset size h1 h2
  have hl := resizeStep_length dst offset size h1 h2
  refine ⟨((resizeStep dst offset size).drop offset).take size,
    (resizeStep dst offset size).drop (offset + size), ?_, ?_, rfl⟩
  · rw [← ht, List.append_assoc, ← List.drop_drop, List.take_append_drop, List.take_append_drop]
  · simp only [List.length_take, List.length_drop]; omega

theorem GetSerializedSize_of_lt (X : Externals H E) (b : TxBlock H E)
    (h : X.SIZE + 4 + 68 * b.m_microBlockHashes.length + X.baseSize b.m_cosigs < 4294967296) :
    GetSerializedSize X b
      = X.SIZE + 4 + 68 * b.m_microBlockHashes.length + X.baseSize b.m_cosigs := by
  unfold GetSerializedSize SIZEOF_UINT32 TRAN_HASH_SIZE STATE_HASH_SIZE
  rw [u32_of_lt (by omega)]
  omega

theorem Serialize_returned (X : Externals H E) (hX : X.Lawful) (b : TxBlock H E)
    (dst : List Byte) (offset : Nat)
    (hh : b.m_microBlockHashes.length = X.GetNumMicroBlockHashes b.m_header)
    (hs : b.m_shardIDs.length = X.GetNumMicroBlockHashes b.m_header)
    (hoff : offset ≤ dst.length)
    (hfit : offset + (X.SIZE + 4 + 68 * b.m_microBlockHashes.length + X.baseSize b.m_cosigs)
      < 4294967296) :
    ∃ writes, Serialize X b dst offset
        = .returned (dst.take offset ++ encode X b
            ++ (resizeStep dst offset (GetSerializedSize X b)).drop
                (offset + GetSerializedSize X b))
          (GetSerializedSize X b) writes
      ∧ bytesWritten writes = GetSerializedSize X b := by
  have hsz := GetSerializedSize_of_lt X b (by omega)
  obtain ⟨R, Q, hd, hR, hQ⟩ := resizeStep_split dst offset (GetSerializedSize X b) hoff
    (by omega)
  rw [← hQ]
  obtain ⟨Rh, T1, rfl, hRh, hT1⟩ := exists_split R X.SIZE (by omega)
  obtain ⟨Rb, T2, rfl, hRb, hT2⟩ := exists_split T1 4 (by simp only [List.length_append] at hR; omega)
  obtain ⟨Re, Rc, rfl, hRe, hRc⟩ := exists_split T2 (68 * b.m_microBlockHashes.length)
    (by simp only [List.length_append] at hR hT1; omega)
  simp only [List.length_append] at hR hT1 hT2 hRc
  have hP : (dst.take offset).length = offset := by simp only [List.length_take]; omega
  have hhb := hX.headerBytes_length b.m_header
  have hnb := hX.numberBytes_length (SerializeIsMicroBlockEmpty b.m_isMicroBlockEmpty)
  have hbb := hX.baseBytes_length b.m_cosigs
  have e1 : dst.take offset ++ (Rh ++ (Rb ++ (Re ++ Rc))) ++ Q
      = dst.take offset ++ Rh ++ (Rb ++ (Re ++ (Rc ++ Q))) := by simp
  have w1 := writeAt_append (dst.take offset) Rh (Rb ++ (Re ++ (Rc ++ Q)))
    (X.headerBytes b.m_header) offset hP (by omega)
  have e2 : dst.take offset ++ X.headerBytes b.m_header ++ (Rb ++ (Re ++ (Rc ++ Q)))
      = (dst.take offset ++ X.headerBytes b.m_header) ++ Rb ++ (Re ++ (Rc ++ Q)) := by simp
  have w2 := writeAt_append (dst.take offset ++ X.headerBytes b.m_header) Rb (Re ++ (Rc ++ Q))
    (X.numberBytes (SerializeIsMicroBlockEmpty b.m_isMicroBlockEmpty)) (offset + X.SIZE)
    (by simp only [List.length_append]; omega) (by omega)
  have e3 : (dst.take offset ++ X.headerBytes b.m_header)
        ++ X.numberBytes (SerializeIsMicroBlockEmpty b.m_isMicroBlockEmpty) ++ (Re ++ (Rc ++ Q))
      = (dst.take offset ++ X.headerBytes b.m_header
        ++ X.numberBytes (SerializeIsMicroBlockEmpty b.m_isMicroBlockEmpty)) ++ Re ++ (Rc ++ Q) := by
    simp
  obtain ⟨w, hw, hsum⟩ := serializeEntries_done X hX b (X.GetNumMicroBlockHashes b.m_header) 0
    (offset + X.SIZE + 4)
    (dst.take offset ++ X.headerBytes b.m_header
        ++ X.numberBytes (SerializeIsMicroBlockEmpty b.m_isMicroBlockEmpty)) Re (Rc ++ Q)
    ([(offset, (X.headerBytes b.m_header).length)]
      ++ [(offset + X.SIZE, (X.numberBytes (SerializeIsMicroBlockEmpty b.m_isMicroBlockEmpty)).length)])
    (by omega) (by omega) (by simp only [List.length_append]; omega) (by rw [← hh]; omega)
    (by rw [← hh]; omega)
  rw [List.drop_zero, List.drop_zero, ← hs, List.take_length, hs, ← hh, List.take_length] at hw
  have e4 : (dst.take offset ++ X.headerBytes b.m_header
        ++ X.numberBytes (SerializeIsMicroBlockEmpty b.m_isMicroBlockEmpty))
        ++ entriesBytes X b.m_shardIDs b.m_microBlockHashes ++ (Rc ++ Q)
      = (dst.take offset ++ X.headerBytes b.m_header
        ++ X.numberBytes (SerializeIsMicroBlockEmpty b.m_isMicroBlockEmpty)
        ++ entriesBytes X b.m_shardIDs b.m_microBlockHashes) ++ Rc ++ Q := by simp
  have hel := entriesBytes_length X hX b.m_shardIDs b.m_microBlockHashes (by omega)
  have w4 := writeAt_append (dst.take offset ++ X.headerBytes b.m_header
        ++ X.numberBytes (SerializeIsMicroBlockEmpty b.m_isMicroBlockEmpty)
        ++ entriesBytes X b.m_shardIDs b.m_microBlockHashes) Rc Q (X.baseBytes b.m_cosigs)
    (offset + X.SIZE + 4 + 68 * b.m_microBlockHashes.length)
    (by simp only [List.length_append]; omega) (by omega)
  refine ⟨[(offset, (X.headerBytes b.m_header).length)]
      ++ [(offset + X.SIZE, (X.numberBytes (SerializeIsMicroBlockEmpty b.m_isMicroBlockEmpty)).length)]
      ++ w ++ [(offset + X.SIZE + 4 + 68 * b.m_microBlockHashes.length,
        (X.baseBytes b.m_cosigs).length)], ?_, ?_⟩
  · unfold Serialize
    simp only [SIZEOF_UINT32]
    rw [hd, e1, w1, e2, u32_of_lt (by omega : offset + X.SIZE < 4294967296), w2, e3,
      u32_of_lt (by omega : offset + X.SIZE + 4 < 4294967296), ← hh, hw]
    simp only
    rw [e4, w4]
    simp only [encode, List.append_assoc]
  · simp only [bytesWritten_append, hsum]
    simp only [bytesWritten, List.map_cons, List.map_nil, List.sum_cons, List.sum_nil]
    omega

theorem SerializeIsMicroBlockEmpty_lt (bits : List Bool) :
    SerializeIsMicroBlockEmpty bits < 4294967296 := by
  unfold SerializeIsMicroBlockEmpty
  simp only
  omega

theorem Deserialize_encode (X : Externals H E) (hX : X.Lawful) (self b : TxBlock H E)
    (P Q : List Byte) (offset : Nat) (hP : P.length = offset)
    (hh : b.m_microBlockHashes.length = X.GetNumMicroBlockHashes b.m_header)
    (hs : b.m_shardIDs.length = X.GetNumMicroBlockHashes b.m_header)
    (hids : ∀ v ∈ b.m_shardIDs, v < 4294967296)
    (hfit : offset + (X.SIZE + 4 + 68 * b.m_microBlockHashes.length + X.baseSize b.m_cosigs)
      < 4294967296) :
    ∃ tr, Deserialize X self (P ++ encode X b ++ Q) offset
      = ⟨0, ⟨b.m_header,
          DeserializeIsMicroBlockEmpty (X.GetNumMicroBlockHashes b.m_header)
            (SerializeIsMicroBlockEmpty b.m_isMicroBlockEmpty),
          self.m_microBlockHashes ++ b.m_microBlockHashes,
          self.m_shardIDs ++ b.m_shardIDs, b.m_cosigs⟩, tr⟩ := by
  have hhb := hX.headerBytes_length b.m_header
  have hnb := hX.numberBytes_length (SerializeIsMicroBlockEmpty b.m_isMicroBlockEmpty)
  have hbb := hX.baseBytes_length b.m_cosigs
  have hel := entriesBytes_length X hX b.m_shardIDs b.m_microBlockHashes (by omega)
  have e1 : P ++ encode X b ++ Q = P ++ X.headerBytes b.m_header
      ++ (X.numberBytes (SerializeIsMicroBlockEmpty b.m_isMicroBlockEmpty)
        ++ (entriesBytes X b.m_shardIDs b.m_microBlockHashes ++ (X.baseBytes b.m_cosigs ++ Q))) := by
    simp [encode]
  have e2 : P ++ encode X b ++ Q = (P ++ X.headerBytes b.m_header)
      ++ X.numberBytes (SerializeIsMicroBlockEmpty b.m_isMicroBlockEmpty)
      ++ (entriesBytes X b.m_shardIDs b.m_microBlockHashes ++ (X.baseBytes b.m_cosigs ++ Q)) := by
    simp [encode]
  have e3 : P ++ encode X b ++ Q = (P ++ X.headerBytes b.m_header
      ++ X.numberBytes (SerializeIsMicroBlockEmpty b.m_isMicroBlockEmpty))
      ++ entriesBytes X b.m_shardIDs b.m_microBlockHashes ++ (X.baseBytes b.m_cosigs ++ Q) := by
    simp [encode]
  have e4 : P ++ encode X b ++ Q = (P ++ X.headerBytes b.m_header
      ++ X.numberBytes (SerializeIsMicroBlockEmpty b.m_isMicroBlockEmpty)
      ++ entriesBytes X b.m_shardIDs b.m_microBlockHashes) ++ X.baseBytes b.m_cosigs ++ Q := by
    simp [encode]
  have g1 : X.headerDeserialize (P ++ encode X b ++ Q) offset = some (0, b.m_header) := by
    apply hX.headerDeserialize_bytes
    rw [e1]
    exact take_drop_append _ _ _ _ _ hP hhb
  have g2 : X.GetNumber (P ++ encode X b ++ Q) (offset + X.SIZE)
      = some (SerializeIsMicroBlockEmpty b.m_isMicroBlockEmpty) := by
    apply hX.GetNumber_bytes _ _ _ (SerializeIsMicroBlockEmpty_lt _)
    rw [e2]
    exact take_drop_append _ _ _ _ _ (by simp only [List.length_append]; omega) hnb
  obtain ⟨tr, g3⟩ := deserializeEntries_entriesBytes X hX b.m_shardIDs b.m_microBlockHashes
    ⟨offset + X.SIZE + 4, self.m_shardIDs, self.m_microBlockHashes,
      [.header offset, .number (offset + X.SIZE)]⟩
    (P ++ X.headerBytes b.m_header
      ++ X.numberBytes (SerializeIsMicroBlockEmpty b.m_isMicroBlockEmpty))
    (X.baseBytes b.m_cosigs ++ Q) (by omega) hids
    (by simp only [List.length_append]; omega) (by simp only; omega)
  rw [← e3, hs] at g3
  have g4 : ∀ e0, X.baseDeserialize e0 (P ++ encode X b ++ Q)
      (offset + X.SIZE + 4 + 68 * b.m_shardIDs.length) = some (0, b.m_cosigs) := by
    intro e0
    apply hX.baseDeserialize_bytes
    rw [e4]
    exact take_drop_append _ _ _ _ _ (by simp only [List.length_append]; omega) hbb
  rw [hs] at g4
  refine ⟨[.header offset, .number (offset + X.SIZE)] ++ tr
    ++ [.base (offset + X.SIZE + 4 + 68 * X.GetNumMicroBlockHashes b.m_header)], ?_⟩
  unfold Deserialize
  simp only [g1, SIZEOF_UINT32, ne_eq, not_true_eq_false, if_false]
  rw [u32_of_lt (by omega : offset + X.SIZE < 4294967296)]
  simp only [g2]
  rw [u32_of_lt (by omega : offset + X.SIZE + 4 < 4294967296)]
  simp only [g3, g4]

theorem take_one_drop_eq (src : List Byte) (off : Nat) (x : Byte)
    (h : (src.drop off).take 1 = [x]) : off < src.length ∧ src.getD off 0 = x := by
  have hlt : off < src.length := by
    by_contra hc
    rw [List.drop_eq_nil_of_le (by omega)] at h
    simp at h
  refine ⟨hlt, ?_⟩
  rw [List.drop_eq_getElem_cons hlt] at h
  simp only [List.take_succ_cons, List.take_zero, List.cons.injEq, and_true] at h
  simp [List.getD_eq_getElem?_getD, List.getElem?_eq_getElem hlt, h]

theorem demoDecodeByte_bytes (e0 : Byte) (src : List Byte) (off : Nat) (x : Byte)
    (h : (src.drop off).take 1 = [x]) : demoDecodeByte e0 src off = some (0, x) := by
  obtain ⟨h1, h2⟩ := take_one_drop_eq src off x h
  rw [demoDecodeByte, if_pos h1, h2]

theorem demoGetNumber_bytes (src : List Byte) (off v : Nat) (hv : v < 4294967296)
    (h : (src.drop off).take 4 = demoNumberBytes v) : demoGetNumber src off = some v := by
  have hlen : off + 4 ≤ src.length := by
    have := congrArg List.length h
    simp [demoNumberBytes] at this
    omega
  have h0 : src.drop off = src[off] :: src[off + 1] :: src[off + 2] :: src[off + 3]
      :: src.drop (off + 4) := by
    rw [List.drop_eq_getElem_cons (by omega), List.drop_eq_getElem_cons (by omega),
      List.drop_eq_getElem_cons (by omega), List.drop_eq_getElem_cons (by omega)]
  rw [h0] at h
  simp only [List.take_succ_cons, List.take_zero, demoNumberBytes, List.cons.injEq, and_true] at h
  obtain ⟨a0, a1, a2, a3⟩ := h
  have b0 := congrArg Fin.val a0
  have b1 := congrArg Fin.val a1
  have b2 := congrArg Fin.val a2
  have b3 := congrArg Fin.val a3
  simp only [Fin.ofNat, Fin.val_mk] at b0 b1 b2 b3
  simp only [demoGetNumber, if_pos hlen, List.getD_eq_getElem?_getD,
    List.getElem?_eq_getElem (by omega : off < src.length),
    List.getElem?_eq_getElem (by omega : off + 1 < src.length),
    List.getElem?_eq_getElem (by omega : off + 2 < src.length),
    List.getElem?_eq_getElem (by omega : off + 3 < src.length), Option.getD_some, b0, b1, b2, b3,
    Option.some.injEq]
  omega

theorem demo_lawful : demo.Lawful where
  headerBytes_length _ := rfl
  numberBytes_length _ := rfl
  baseBytes_length _ := rfl
  headerDeserialize_bytes src off h hb := demoDecodeByte_bytes 0 src off h hb
  GetNumber_bytes := demoGetNumber_bytes
  baseDeserialize_bytes e0 src off e hb := demoDecodeByte_bytes e0 src off e hb
  headerEq_refl h := by simp [demo]

theorem entriesBytes_drop_take (X : Externals H E) (hX : X.Lawful) :
    ∀ (ids : List Nat) (hss : List MicroBlockHashSet) (i v : Nat) (hs : MicroBlockHashSet),
      ids[i]? = some v → hss[i]? = some hs →
      ((entriesBytes X ids hss).drop (68 * i)).take 68 = entryBytes X v hs := by
  intro ids
  induction ids with
  | nil => intro hss i v hs h; simp at h
  | cons a ids ih =>
    intro hss i v hs h1 h2
    cases hss with
    | nil => simp at h2
    | cons c hss =>
      have hlen : (entryBytes X a c).length = 68 := by
        simp only [entryBytes, List.length_append, hX.numberBytes_length,
          c.m_txRootHash.size_eq, c.m_stateDeltaHash.size_eq]
      cases i with
      | zero =>
        simp only [List.getElem?_cons_zero, Option.some.injEq] at h1 h2
        subst h1 h2
        simp only [entriesBytes, Nat.mul_zero, List.drop_zero]
        rw [List.take_append_of_le_length (by omega), List.take_of_length_le (by omega)]
      | succ i =>
        simp only [List.getElem?_cons_succ] at h1 h2
        simp only [entriesBytes]
        rw [show 68 * (i + 1) = (entryBytes X a c).length + 68 * i by omega, List.drop_append]
        exact ih hss i v hs h1 h2

theorem resizeStep_of_gt (dst : List Byte) (offset size : Nat) (h1 : dst.length < offset)
    (h2 : offset + size < 4294967296) : resizeStep dst offset size = dst := by
  unfold resizeStep
  simp only
  rw [if_neg (by omega)]

theorem writeAt_past_end (dst bs : List Byte) (off : Nat) (h : dst.length ≤ off) :
    writeAt dst off bs = dst ++ List.replicate (off - dst.length) 0 ++ bs := by
  unfold writeAt overlay
  split
  · rename_i hlt
    have e : off + bs.length - dst.length = (off - dst.length) + bs.length := by omega
    have hr : resize dst (off + bs.length)
        = (dst ++ List.replicate (off - dst.length) 0) ++ List.replicate bs.length 0 := by
      rw [resize, List.take_of_length_le (by omega), e, List.replicate_add, List.append_assoc]
    have hl : (dst ++ List.replicate (off - dst.length) (0 : Byte)).length = off := by
      simp only [List.length_append, List.length_replicate]; omega
    rw [hr, List.take_append_of_le_length (by omega), List.take_of_length_le (by omega),
      List.drop_of_length_le (by simp only [List.length_append, List.length_replicate]; omega)]
    simp
  · rename_i hlt
    have hb : bs = [] := List.eq_nil_of_length_eq_zero (by omega)
    have ho : off = dst.length := by omega
    subst hb ho
    simp

theorem writeAt_end (dst bs : List Byte) (off : Nat) (h : dst.length = off) :
    writeAt dst off bs = dst ++ bs := by
  rw [writeAt_past_end dst bs off (by omega)]
  simp [h]

theorem Serialize_past_end (X : Externals H E) (hX : X.Lawful) (b : TxBlock H E)
    (dst : List Byte) (offset : Nat)
    (hh : b.m_microBlockHashes.length = X.GetNumMicroBlockHashes b.m_header)
    (hs : b.m_shardIDs.length = X.GetNumMicroBlockHashes b.m_header)
    (hoff : dst.length < offset)
    (hfit : offset + (X.SIZE + 4 + 68 * b.m_microBlockHashes.length + X.baseSize b.m_cosigs)
      < 4294967296) :
    Serialize X b dst offset = .undefined ∨
      ∃ writes, Serialize X b dst offset
        = .returned (dst ++ List.replicate (offset - dst.length) 0 ++ encode X b ++ [])
            (GetSerializedSize X b) writes := by
  have hsz := GetSerializedSize_of_lt X b (by omega)
  have hhb := hX.headerBytes_length b.m_header
  have hnb := hX.numberBytes_length (SerializeIsMicroBlockEmpty b.m_isMicroBlockEmpty)
  have w1 := writeAt_past_end dst (X.headerBytes b.m_header) offset (by omega)
  have w2 := writeAt_end (dst ++ List.replicate (offset - dst.length) 0 ++ X.headerBytes b.m_header)
    (X.numberBytes (SerializeIsMicroBlockEmpty b.m_isMicroBlockEmpty)) (offset + X.SIZE)
    (by simp only [List.length_append, List.length_replicate]; omega)
  unfold Serialize
  simp only [SIZEOF_UINT32]
  rw [resizeStep_of_gt dst offset _ hoff (by omega), w1,
    u32_of_lt (by omega : offset + X.SIZE < 4294967296), w2,
    u32_of_lt (by omega : offset + X.SIZE + 4 < 4294967296)]
  cases hn : X.GetNumMicroBlockHashes b.m_header with
  | zero =>
    right
    have hids : b.m_shardIDs = [] := List.eq_nil_of_length_eq_zero (by omega)
    have hhs : b.m_microBlockHashes = [] := List.eq_nil_of_length_eq_zero (by omega)
    refine ⟨[(offset, (X.headerBytes b.m_header).length)]
      ++ [(offset + X.SIZE, (X.numberBytes (SerializeIsMicroBlockEmpty b.m_isMicroBlockEmpty)).length)]
      ++ [(offset + X.SIZE + 4, (X.baseBytes b.m_cosigs).length)], ?_⟩
    simp only [serializeEntries]
    rw [writeAt_end _ _ _ (by simp only [List.length_append, List.length_replicate]; omega)]
    simp only [encode, hids, hhs, entriesBytes, List.append_nil, List.append_assoc]
  | succ n =>
    left
    have hi : 0 < b.m_shardIDs.length := by omega
    have hj : 0 < b.m_microBlockHashes.length := by omega
    have htx := (b.m_microBlockHashes[0]).m_txRootHash.size_eq
    have hib := hX.numberBytes_length (b.m_shardIDs[0])
    rw [serializeEntries]
    simp only [List.getElem?_eq_getElem hi, List.getElem?_eq_getElem hj, SIZEOF_UINT32]
    rw [u32_of_lt (by omega : offset + X.SIZE + 4 + 4 < 4294967296),
      writeAt_end _ _ _ (by simp only [List.length_append, List.length_replicate]; omega)]
    have hc : copyAt (dst ++ List.replicate (offset - dst.length) (0 : Byte) ++ X.headerBytes b.m_header
        ++ X.numberBytes (SerializeIsMicroBlockEmpty b.m_isMicroBlockEmpty)
        ++ X.numberBytes (b.m_shardIDs[0])) (offset + X.SIZE + 4 + 4)
        (b.m_microBlockHashes[0]).m_txRootHash.bytes = none := by
      rw [copyAt, if_neg]
      simp only [List.length_append, List.length_replicate]
      omega
    simp only [hc]

theorem DeserializeIsMicroBlockEmpty_length : ∀ (count arg : Nat),
    (DeserializeIsMicroBlockEmpty count arg).length = count := by
  intro count
  induction count with
  | zero => intro arg; rfl
  | succ n ih => intro arg; simp [DeserializeIsMicroBlockEmpty, ih]

theorem deserializeEntries_no_raise (X : Externals H E) (src : List Byte)
    (hnum : ∀ off, X.GetNumber src off ≠ none) :
    ∀ (n : Nat) (s : EntriesState), (deserializeEntries X src n s).1 = false := by
  intro n
  induction n with
  | zero => intro s; rfl
  | succ n ih =>
    intro s
    rw [deserializeEntries]
    cases hg : X.GetNumber src s.curOffset with
    | none => exact absurd hg (hnum _)
    | some v => exact ih _

theorem Deserialize_no_raise (X : Externals H E) (self : TxBlock H E) (src : List Byte)
    (offset : Nat) (h : H) (hdr : X.headerDeserialize src offset = some (0, h))
    (hnum : ∀ off, X.GetNumber src off ≠ none)
    (hbase : ∀ e off, X.baseDeserialize e src off ≠ none) :
    (Deserialize X self src offset).ret = 0
      ∧ (Deserialize X self src offset).block.m_header = h
      ∧ (Deserialize X self src offset).block.m_isMicroBlockEmpty.length
          = X.GetNumMicroBlockHashes h := by
  unfold Deserialize
  simp only [hdr, ne_eq, not_true_eq_false, if_false]
  cases hg : X.GetNumber src (u32 (offset + X.SIZE)) with
  | none => exact absurd hg (hnum _)
  | some arg =>
    simp only
    generalize hr : deserializeEntries X src (X.GetNumMicroBlockHashes h)
      ⟨u32 (u32 (offset + X.SIZE) + SIZEOF_UINT32), self.m_shardIDs, self.m_microBlockHashes,
        [.header offset, .number (u32 (offset + X.SIZE))]⟩ = r
    have h1 := deserializeEntries_no_raise X src hnum (X.GetNumMicroBlockHashes h)
      ⟨u32 (u32 (offset + X.SIZE) + SIZEOF_UINT32), self.m_shardIDs, self.m_microBlockHashes,
        [.header offset, .number (u32 (offset + X.SIZE))]⟩
    rw [hr] at h1
    obtain ⟨raised, s⟩ := r
    simp only at h1
    subst h1
    simp only
    cases hb : X.baseDeserialize self.m_cosigs src s.curOffset with
    | none => exact absurd hb (hbase _ _)
    | some p =>
      obtain ⟨st, cosigs⟩ := p
      simp only [DeserializeIsMicroBlockEmpty_length, and_self]

theorem demoGetNumber_ne_none (src : List Byte) (off : Nat) : demoGetNumber src off ≠ none := by
  unfold demoGetNumber
  split <;> simp

theorem demoDecodeByte_ne_none (e : Byte) (src : List Byte) (off : Nat) :
    demoDecodeByte e src off ≠ none := by
  unfold demoDecodeByte
  split <;> simp

theorem demo_headerDeserialize_cons (x : Byte) (l : List Byte) :
    demo.headerDeserialize (x :: l) 0 = some (0, x) := by
  simp [demo, demoDecodeByte]

theorem demo_GetNumber_ne_none (src : List Byte) (off : Nat) : demo.GetNumber src off ≠ none :=
  demoGetNumber_ne_none src off

theorem demo_baseDeserialize_ne_none (e : Byte) (src : List Byte) (off : Nat) :
    demo.baseDeserialize e src off ≠ none :=
  demoDecodeByte_ne_none e src off

theorem overflowBytes_header : demo.headerDeserialize overflowBytes 0 = some (0, 33) := by
  unfold overflowBytes
  exact demo_headerDeserialize_cons 33 _

theorem deserializeEntries_lift (X : Externals H E) (src : List Byte) :
    ∀ (n : Nat) (s : EntriesState),
      deserializeEntries X src n s
        = ((deserializeEntries X src n ⟨s.curOffset, [], [], []⟩).1,
            ⟨(deserializeEntries X src n ⟨s.curOffset, [], [], []⟩).2.curOffset,
              s.shardIDs ++ (deserializeEntries X src n ⟨s.curOffset, [], [], []⟩).2.shardIDs,
              s.hashes ++ (deserializeEntries X src n ⟨s.curOffset, [], [], []⟩).2.hashes,
              s.trace ++ (deserializeEntries X src n ⟨s.curOffset, [], [], []⟩).2.trace⟩) := by
  intro n
  induction n with
  | zero => intro s; simp [deserializeEntries]
  | succ n ih =>
    intro s
    rw [deserializeEntries, deserializeEntries]
    cases hg : X.GetNumber src s.curOffset with
    | none => simp
    | some v =>
      simp only
      rw [ih]
      conv => rhs; rw [ih]
      simp

theorem deserializeEntries_lengths (X : Externals H E) (src : List Byte) :
    ∀ (n : Nat) (s : EntriesState), (deserializeEntries X src n s).1 = false →
      (deserializeEntries X src n s).2.shardIDs.length = s.shardIDs.length + n
      ∧ (deserializeEntries X src n s).2.hashes.length = s.hashes.length + n := by
  intro n
  induction n with
  | zero => intro s _; simp [deserializeEntries]
  | succ n ih =>
    intro s
    rw [deserializeEntries]
    cases hg : X.GetNumber src s.curOffset with
    | none => simp
    | some v =>
      simp only
      intro h
      have := ih _ h
      simp only [List.length_append, List.length_singleton] at this
      omega

theorem Deserialize_of_ret_zero (X : Externals H E) (self : TxBlock H E) (src : List Byte)
    (offset : Nat) (hret : (Deserialize X self src offset).ret = 0) :
    ∃ h arg s st e, X.headerDeserialize src offset = some (0, h)
      ∧ X.GetNumber src (u32 (offset + X.SIZE)) = some arg
      ∧ deserializeEntries X src (X.GetNumMicroBlockHashes h)
          ⟨u32 (u32 (offset + X.SIZE) + SIZEOF_UINT32), self.m_shardIDs, self.m_microBlockHashes,
            [.header offset, .number (u32 (offset + X.SIZE))]⟩ = (false, s)
      ∧ X.baseDeserialize self.m_cosigs src s.curOffset = some (st, e)
      ∧ (Deserialize X self src offset).block
          = ⟨h, DeserializeIsMicroBlockEmpty (X.GetNumMicroBlockHashes h) arg, s.hashes,
              s.shardIDs, e⟩ := by
  unfold Deserialize at hret ⊢
  cases hd : X.headerDeserialize src offset with
  | none => simp [hd] at hret
  | some p =>
    obtain ⟨status, h⟩ := p
    by_cases hst : status = 0
    · subst hst
      simp only [hd, ne_eq, not_true_eq_false, if_false] at hret ⊢
      cases hg : X.GetNumber src (u32 (offset + X.SIZE)) with
      | none => simp [hg] at hret
      | some arg =>
        simp only [hg] at hret ⊢
        generalize hr : deserializeEntries X src (X.GetNumMicroBlockHashes h)
          ⟨u32 (u32 (offset + X.SIZE) + SIZEOF_UINT32), self.m_shardIDs,
            self.m_microBlockHashes, [.header offset, .number (u32 (offset + X.SIZE))]⟩ = r
          at hret ⊢
        obtain ⟨raised, s⟩ := r
        cases raised with
        | true => simp at hret
        | false =>
          simp only at hret ⊢
          cases hb : X.baseDeserialize self.m_cosigs src s.curOffset with
          | none => simp [hb] at hret
          | some q =>
            obtain ⟨st, e⟩ := q
            refine ⟨h, arg, s, st, e, rfl, rfl, hr, hb, ?_⟩
            simp only [hr, hb]
    · simp [hd, hst] at hret

theorem serializeEntries_add (X : Externals H E) (b : TxBlock H E) :
    ∀ (n m i cur : Nat) (dst : List Byte) (w : List (Nat × Nat)),
      serializeEntries X b (n + m) i cur dst w
        = match serializeEntries X b n i cur dst w with
          | .done d c w1 => serializeEntries X b m (i + n) c d w1
          | .threw d w1 => .threw d w1
          | .undefined => .undefined := by
  intro n
  induction n with
  | zero => intro m i cur dst w; simp [serializeEntries]
  | succ n ih =>
    intro m i cur dst w
    rw [show n + 1 + m = (n + m) + 1 by omega, serializeEntries, serializeEntries]
    cases h1 : b.m_shardIDs[i]? with
    | none => rfl
    | some v =>
      simp only
      cases h2 : b.m_microBlockHashes[i]? with
      | none => rfl
      | some hp =>
        simp only
        cases h3 : copyAt (writeAt dst cur (X.numberBytes v)) (u32 (cur + SIZEOF_UINT32))
          hp.m_txRootHash.bytes with
        | none => rfl
        | some d2 =>
          simp only
          cases h4 : copyAt d2 (u32 (u32 (cur + SIZEOF_UINT32) + TRAN_HASH_SIZE))
            hp.m_stateDeltaHash.bytes with
          | none => rfl
          | some d3 =>
            simp only
            rw [ih, show i + 1 + n = i + (n + 1) by omega]

theorem serializeEntries_threw (X : Externals H E) (hX : X.Lawful) (b : TxBlock H E)
    (n cur : Nat) (P R Q : List Byte) (w : List (Nat × Nat))
    (hk : b.m_microBlockHashes.length < n)
    (hs : b.m_microBlockHashes.length < b.m_shardIDs.length)
    (hP : P.length = cur) (hR : R.length = 68 * b.m_microBlockHashes.length)
    (hcur : cur + 68 * b.m_microBlockHashes.length < 4294967296) :
    ∃ d w1, serializeEntries X b n 0 cur (P ++ R ++ Q) w = .threw d w1 := by
  obtain ⟨m, rfl⟩ : ∃ m, n = b.m_microBlockHashes.length + (m + 1) := ⟨n - b.m_microBlockHashes.length - 1, by omega⟩
  obtain ⟨w1, hw, _⟩ := serializeEntries_done X hX b b.m_microBlockHashes.length 0 cur P R Q w
    (by omega) (by omega) hP hR hcur
  rw [serializeEntries_add, hw]
  simp only [Nat.zero_add]
  rw [serializeEntries]
  simp only [List.getElem?_eq_getElem hs, List.getElem?_eq_none (Nat.le_refl _)]
  exact ⟨_, _, rfl⟩

theorem Serialize_returned_of_le (X : Externals H E) (hX : X.Lawful) (b : TxBlock H E)
    (dst : List Byte) (offset : Nat)
    (hh : X.GetNumMicroBlockHashes b.m_header ≤ b.m_microBlockHashes.length)
    (hs : X.GetNumMicroBlockHashes b.m_header ≤ b.m_shardIDs.length)
    (hoff : offset ≤ dst.length)
    (hfit : offset + (X.SIZE + 4 + 68 * b.m_microBlockHashes.length + X.baseSize b.m_cosigs)
      < 4294967296) :
    ∃ tail writes, Serialize X b dst offset
        = .returned (dst.take offset ++ (X.headerBytes b.m_header
            ++ X.numberBytes (SerializeIsMicroBlockEmpty b.m_isMicroBlockEmpty)
            ++ entriesBytes X (b.m_shardIDs.take (X.GetNumMicroBlockHashes b.m_header))
                (b.m_microBlockHashes.take (X.GetNumMicroBlockHashes b.m_header))
            ++ X.baseBytes b.m_cosigs) ++ tail)
          (GetSerializedSize X b) writes
      ∧ bytesWritten writes
          = X.SIZE + 4 + 68 * X.GetNumMicroBlockHashes b.m_header + X.baseSize b.m_cosigs := by
  have hsz := GetSerializedSize_of_lt X b (by omega)
  obtain ⟨R, Q, hd, hR, _⟩ := resizeStep_split dst offset (GetSerializedSize X b) hoff
    (by omega)
  obtain ⟨Rh, T1, rfl, hRh, hT1⟩ := exists_split R X.SIZE (by omega)
  obtain ⟨Rb, T2, rfl, hRb, hT2⟩ := exists_split T1 4 (by simp only [List.length_append] at hR; omega)
  obtain ⟨Re, T3, rfl, hRe, hT3⟩ := exists_split T2 (68 * X.GetNumMicroBlockHashes b.m_header)
    (by simp only [List.length_append] at hR hT1; omega)
  obtain ⟨Rc, Rl, rfl, hRc, hRl⟩ := exists_split T3 (X.baseSize b.m_cosigs)
    (by simp only [List.length_append] at hR hT1 hT2; omega)
  simp only [List.length_append] at hR hT1 hT2 hT3 hRl
  have hP : (dst.take offset).length = offset := by simp only [List.length_take]; omega
  have hhb := hX.headerBytes_length b.m_header
  have hnb := hX.numberBytes_length (SerializeIsMicroBlockEmpty b.m_isMicroBlockEmpty)
  have hbb := hX.baseBytes_length b.m_cosigs
  have e1 : dst.take offset ++ (Rh ++ (Rb ++ (Re ++ (Rc ++ Rl)))) ++ Q
      = dst.take offset ++ Rh ++ (Rb ++ (Re ++ (Rc ++ (Rl ++ Q)))) := by simp
  have w1 := writeAt_append (dst.take offset) Rh (Rb ++ (Re ++ (Rc ++ (Rl ++ Q))))
    (X.headerBytes b.m_header) offset hP (by omega)
  have e2 : dst.take offset ++ X.headerBytes b.m_header ++ (Rb ++ (Re ++ (Rc ++ (Rl ++ Q))))
      = (dst.take offset ++ X.headerBytes b.m_header) ++ Rb ++ (Re ++ (Rc ++ (Rl ++ Q))) := by
    simp
  have w2 := writeAt_append (dst.take offset ++ X.headerBytes b.m_header) Rb
    (Re ++ (Rc ++ (Rl ++ Q)))
    (X.numberBytes (SerializeIsMicroBlockEmpty b.m_isMicroBlockEmpty)) (offset + X.SIZE)
    (by simp only [List.length_append]; omega) (by omega)
  have e3 : (dst.take offset ++ X.headerBytes b.m_header)
        ++ X.numberBytes (SerializeIsMicroBlockEmpty b.m_isMicroBlockEmpty)
        ++ (Re ++ (Rc ++ (Rl ++ Q)))
      = (dst.take offset ++ X.headerBytes b.m_header
        ++ X.numberBytes (SerializeIsMicroBlockEmpty b.m_isMicroBlockEmpty)) ++ Re
        ++ (Rc ++ (Rl ++ Q)) := by
    simp
  obtain ⟨w, hw, hsum⟩ := serializeEntries_done X hX b (X.GetNumMicroBlockHashes b.m_header) 0
    (offset + X.SIZE + 4)
    (dst.take offset ++ X.headerBytes b.m_header
        ++ X.numberBytes (SerializeIsMicroBlockEmpty b.m_isMicroBlockEmpty)) Re (Rc ++ (Rl ++ Q))
    ([(offset, (X.headerBytes b.m_header).length)]
      ++ [(offset + X.SIZE, (X.numberBytes (SerializeIsMicroBlockEmpty b.m_isMicroBlockEmpty)).length)])
    (by omega) (by omega) (by simp only [List.length_append]; omega) hRe (by omega)
  rw [List.drop_zero, List.drop_zero] at hw
  have hel := entriesBytes_length X hX
    (b.m_shardIDs.take (X.GetNumMicroBlockHashes b.m_header))
    (b.m_microBlockHashes.take (X.GetNumMicroBlockHashes b.m_header))
    (by simp only [List.length_take]; omega)
  rw [List.length_take, Nat.min_eq_left hs] at hel
  have e4 : (dst.take offset ++ X.headerBytes b.m_header
        ++ X.numberBytes (SerializeIsMicroBlockEmpty b.m_isMicroBlockEmpty))
        ++ entriesBytes X (b.m_shardIDs.take (X.GetNumMicroBlockHashes b.m_header))
            (b.m_microBlockHashes.take (X.GetNumMicroBlockHashes b.m_header))
        ++ (Rc ++ (Rl ++ Q))
      = (dst.take offset ++ X.headerBytes b.m_header
        ++ X.numberBytes (SerializeIsMicroBlockEmpty b.m_isMicroBlockEmpty)
        ++ entriesBytes X (b.m_shardIDs.take (X.GetNumMicroBlockHashes b.m_header))
            (b.m_microBlockHashes.take (X.GetNumMicroBlockHashes b.m_header)))
        ++ Rc ++ (Rl ++ Q) := by simp
  have w4 := writeAt_append (dst.take offset ++ X.headerBytes b.m_header
        ++ X.numberBytes (SerializeIsMicroBlockEmpty b.m_isMicroBlockEmpty)
        ++ entriesBytes X (b.m_shardIDs.take (X.GetNumMicroBlockHashes b.m_header))
            (b.m_microBlockHashes.take (X.GetNumMicroBlockHashes b.m_header)))
    Rc (Rl ++ Q) (X.baseBytes b.m_cosigs)
    (offset + X.SIZE + 4 + 68 * X.GetNumMicroBlockHashes b.m_header)
    (by simp only [List.length_append]; omega) (by omega)
  refine ⟨Rl ++ Q, [(offset, (X.headerBytes b.m_header).length)]
      ++ [(offset + X.SIZE, (X.numberBytes (SerializeIsMicroBlockEmpty b.m_isMicroBlockEmpty)).length)]
      ++ w ++ [(offset + X.SIZE + 4 + 68 * X.GetNumMicroBlockHashes b.m_header,
        (X.baseBytes b.m_cosigs).length)], ?_, ?_⟩
  · unfold Serialize
    simp only [SIZEOF_UINT32]
    rw [hd, e1, w1, e2, u32_of_lt (by omega : offset + X.SIZE < 4294967296), w2, e3,
      u32_of_lt (by omega : offset + X.SIZE + 4 < 4294967296), hw]
    simp only
    rw [e4, w4]
    simp only [List.append_assoc]
  · simp only [bytesWritten_append, hsum]
    simp only [bytesWritten, List.map_cons, List.map_nil, List.sum_cons, List.sum_nil]
    omega

theorem Serialize_threw (X : Externals H E) (hX : X.Lawful) (b : TxBlock H E)
    (dst : List Byte) (offset : Nat)
    (hh : b.m_microBlockHashes.length < X.GetNumMicroBlockHashes b.m_header)
    (hs : b.m_microBlockHashes.length < b.m_shardIDs.length)
    (hoff : offset ≤ dst.length)
    (hfit : offset + (X.SIZE + 4 + 68 * b.m_microBlockHashes.length + X.baseSize b.m_cosigs)
      < 4294967296) :
    ∃ d writes, Serialize X b dst offset = .threw d writes := by
  have hsz := GetSerializedSize_of_lt X b (by omega)
  obtain ⟨R, Q, hd, hR, _⟩ := resizeStep_split dst offset (GetSerializedSize X b) hoff
    (by omega)
  obtain ⟨Rh, T1, rfl, hRh, hT1⟩ := exists_split R X.SIZE (by omega)
  obtain ⟨Rb, T2, rfl, hRb, hT2⟩ := exists_split T1 4 (by simp only [List.length_append] at hR; omega)
  obtain ⟨Re, Rc, rfl, hRe, hRc⟩ := exists_split T2 (68 * b.m_microBlockHashes.length)
    (by simp only [List.length_append] at hR hT1; omega)
  simp only [List.length_append] at hR hT1 hT2 hRc
  have hP : (dst.take offset).length = offset := by simp only [List.length_take]; omega
  have hhb := hX.headerBytes_length b.m_header
  have hnb := hX.numberBytes_length (SerializeIsMicroBlockEmpty b.m_isMicroBlockEmpty)
  have e1 : dst.take offset ++ (Rh ++ (Rb ++ (Re ++ Rc))) ++ Q
      = dst.take offset ++ Rh ++ (Rb ++ (Re ++ (Rc ++ Q))) := by simp
  have w1 := writeAt_append (dst.take offset) Rh (Rb ++ (Re ++ (Rc ++ Q)))
    (X.headerBytes b.m_header) offset hP (by omega)
  have e2 : dst.take offset ++ X.headerBytes b.m_header ++ (Rb ++ (Re ++ (Rc ++ Q)))
      = (dst.take offset ++ X.headerBytes b.m_header) ++ Rb ++ (Re ++ (Rc ++ Q)) := by simp
  have w2 := writeAt_append (dst.take offset ++ X.headerBytes b.m_header) Rb (Re ++ (Rc ++ Q))
    (X.numberBytes (SerializeIsMicroBlockEmpty b.m_isMicroBlockEmpty)) (offset + X.SIZE)
    (by simp only [List.length_append]; omega) (by omega)
  have e3 : (dst.take offset ++ X.headerBytes b.m_header)
        ++ X.numberBytes (SerializeIsMicroBlockEmpty b.m_isMicroBlockEmpty) ++ (Re ++ (Rc ++ Q))
      = (dst.take offset ++ X.headerBytes b.m_header
        ++ X.numberBytes (SerializeIsMicroBlockEmpty b.m_isMicroBlockEmpty)) ++ Re ++ (Rc ++ Q) := by
    simp
  obtain ⟨d, w, hw⟩ := serializeEntries_threw X hX b (X.GetNumMicroBlockHashes b.m_header)
    (offset + X.SIZE + 4)
    (dst.take offset ++ X.headerBytes b.m_header
        ++ X.numberBytes (SerializeIsMicroBlockEmpty b.m_isMicroBlockEmpty)) Re (Rc ++ Q)
    ([(offset, (X.headerBytes b.m_header).length)]
      ++ [(offset + X.SIZE, (X.numberBytes (SerializeIsMicroBlockEmpty b.m_isMicroBlockEmpty)).length)])
    hh hs (by simp only [List.length_append]; omega) hRe (by omega)
  refine ⟨d, w, ?_⟩
  unfold Serialize
  simp only [SIZEOF_UINT32]
  rw [hd, e1, w1, e2, u32_of_lt (by omega : offset + X.SIZE < 4294967296), w2, e3,
    u32_of_lt (by omega : offset + X.SIZE + 4 < 4294967296), hw]

section VectorOrder

variable {α : Type} (lt : α → α → Bool)

theorem vectorLt_irrefl (hirr : ∀ x, lt x x = false) : ∀ l : List α, vectorLt lt l l = false := by
  intro l
  induction l with
  | nil => rfl
  | cons x xs ih => simp [vectorLt, hirr, ih]

theorem vectorLt_cons_iff (htotal : ∀ x y, lt x y = false → lt y x = false → x = y)
    (x y : α) (xs ys : List α) :
    vectorLt lt (x :: xs) (y :: ys) = true
      ↔ lt x y = true ∨ (x = y ∧ lt x x = false ∧ vectorLt lt xs ys = true) := by
  rw [vectorLt]
  cases hxy : lt x y with
  | true => simp
  | false =>
    cases hyx : lt y x with
    | true =>
      simp only [Bool.false_eq_true, if_false, if_true, false_or, false_iff, not_and]
      intro h
      subst h
      rw [hxy] at hyx
      exact absurd hyx (by simp)
    | false =>
      have h := htotal x y hxy hyx
      subst h
      simp [hxy]

theorem vectorLt_trans (hirr : ∀ x, lt x x = false)
    (htrans : ∀ x y z, lt x y = true → lt y z = true → lt x z = true)
    (htotal : ∀ x y, lt x y = false → lt y x = false → x = y) :
    ∀ a b c : List α, vectorLt lt a b = true → vectorLt lt b c = true →
      vectorLt lt a c = true := by
  intro a
  induction a with
  | nil =>
    intro b c hab hbc
    cases b with
    | nil => simp [vectorLt] at hab
    | cons y ys =>
      cases c with
      | nil => simp [vectorLt] at hbc
      | cons z zs => rfl
  | cons x xs ih =>
    intro b c hab hbc
    cases b with
    | nil => simp [vectorLt] at hab
    | cons y ys =>
      cases c with
      | nil => simp [vectorLt] at hbc
      | cons z zs =>
        rw [vectorLt_cons_iff lt htotal] at hab hbc ⊢
        rcases hab with hxy | ⟨rfl, _, hxs⟩
        · rcases hbc with hyz | ⟨rfl, _, _⟩
          · exact Or.inl (htrans x y z hxy hyz)
          · exact Or.inl hxy
        · rcases hbc with hyz | ⟨rfl, _, hys⟩
          · exact Or.inl hyz
          · exact Or.inr ⟨rfl, hirr x, ih ys zs hxs hys⟩

theorem vectorLt_total (htotal : ∀ x y, lt x y = false → lt y x = false → x = y) :
    ∀ a b : List α, vectorLt lt a b = false → vectorLt lt b a = false → a = b := by
  intro a
  induction a with
  | nil =>
    intro b hab _
    cases b with
    | nil => rfl
    | cons y ys => simp [vectorLt] at hab
  | cons x xs ih =>
    intro b hab hba
    cases b with
    | nil => simp [vectorLt] at hba
    | cons y ys =>
      rw [vectorLt] at hab hba
      cases hxy : lt x y with
      | true => simp [hxy] at hab
      | false =>
        cases hyx : lt y x with
        | true => simp [hyx] at hba
        | false =>
          simp only [hxy, hyx, Bool.false_eq_true, if_false] at hab hba
          rw [htotal x y hxy hyx, ih ys hab hba]

end VectorOrder

theorem lt_of_header_eq (O : Orderings H) (hO : O.StrictTotal) (a b : TxBlock H E)
    (h : a.m_header = b.m_header) :
    TxBlock.lt O a b = vectorLt O.hashLt a.m_microBlockHashes b.m_microBlockHashes := by
  unfold TxBlock.lt
  rw [h, hO.headerGt_eq, hO.headerLt_irrefl]
  cases vectorLt O.hashLt a.m_microBlockHashes b.m_microBlockHashes <;> simp

theorem lt_iff (O : Orderings H) (hO : O.StrictTotal) (a b : TxBlock H E) :
    TxBlock.lt O a b = true
      ↔ O.headerLt a.m_header b.m_header = true
        ∨ (a.m_header = b.m_header
          ∧ vectorLt O.hashLt a.m_microBlockHashes b.m_microBlockHashes = true) := by
  constructor
  · intro h
    cases hab : O.headerLt a.m_header b.m_header with
    | true => exact Or.inl rfl
    | false =>
      right
      unfold TxBlock.lt at h
      rw [hab, hO.headerGt_eq] at h
      cases hba : O.headerLt b.m_header a.m_header with
      | true => simp [hba] at h
      | false =>
        have he := hO.headerLt_total _ _ hab hba
        refine ⟨he, ?_⟩
        simp only [hba, Bool.false_eq_true, if_false] at h
        by_contra hv
        simp [hv] at h
  · rintro (h | ⟨he, hv⟩)
    · simp [TxBlock.lt, h]
    · rw [lt_of_header_eq O hO a b he, hv]

theorem bytesLt_strict :
    (∀ a, bytesLt a a = false)
    ∧ (∀ a b c, bytesLt a b = true → bytesLt b c = true → bytesLt a c = true)
    ∧ (∀ a b, bytesLt a b = false → bytesLt b a = false → a = b) := by
  have hirr : ∀ x : Byte, decide (x < x) = false := by intro x; simp
  have htrans : ∀ x y z : Byte, decide (x < y) = true → decide (y < z) = true →
      decide (x < z) = true := by
    intro x y z h1 h2
    simp only [decide_eq_true_eq] at h1 h2 ⊢
    exact lt_trans h1 h2
  have htotal : ∀ x y : Byte, decide (x < y) = false → decide (y < x) = false → x = y := by
    intro x y h1 h2
    simp only [decide_eq_false_iff_not, not_lt] at h1 h2
    exact le_antisymm h2 h1
  exact ⟨vectorLt_irrefl _ hirr, vectorLt_trans _ hirr htrans htotal, vectorLt_total _ htotal⟩

theorem MicroBlockHashSet_eq_of_key {p q : MicroBlockHashSet}
    (h : p.m_txRootHash.bytes ++ p.m_stateDeltaHash.bytes
      = q.m_txRootHash.bytes ++ q.m_stateDeltaHash.bytes) : p = q := by
  have h1 := List.append_inj h (by rw [p.m_txRootHash.size_eq, q.m_txRootHash.size_eq])
  cases p
  cases q
  simp only [MicroBlockHashSet.mk.injEq]
  exact ⟨Hash.eq_of_bytes h1.1, Hash.eq_of_bytes h1.2⟩

theorem demoOrderings_strictTotal : demoOrderings.StrictTotal where
  headerGt_eq _ _ := rfl
  headerLt_irrefl x := by simp [demoOrderings]
  headerLt_trans x y z h1 h2 := by
    simp only [demoOrderings, decide_eq_true_eq] at h1 h2 ⊢
    exact lt_trans h1 h2
  headerLt_total x y h1 h2 := by
    simp only [demoOrderings, decide_eq_false_iff_not, not_lt] at h1 h2
    exact le_antisymm h2 h1
  hashLt_irrefl p := bytesLt_strict.1 _
  hashLt_trans p q r h1 h2 := bytesLt_strict.2.1 _ _ _ h1 h2
  hashLt_total p q h1 h2 := MicroBlockHashSet_eq_of_key (bytesLt_strict.2.2 _ _ h1 h2)

theorem demo_headerEq_iff (x y : Byte) : demo.headerEq x y = true ↔ x = y := by
  simp [demo]

theorem SerializeIsMicroBlockEmpty_eq_take (bits : List Bool) :
    SerializeIsMicroBlockEmpty bits
      = packBits (bits.take (i32 ((bits.length : Int) - 1) + 1).toNat) % 4294967296 := by
  simp only [SerializeIsMicroBlockEmpty, foldr_i32_emod]
  omega

theorem packBits_append (a b : List Bool) :
    packBits (a ++ b) = packBits a + 2 ^ a.length * packBits b := by
  induction a with
  | nil => simp [packBits]
  | cons x xs ih =>
    rw [List.cons_append, packBits, packBits, ih, List.length_cons, pow_succ]
    ring

theorem packBits_mod_take (l : List Bool) :
    packBits l % 4294967296 = packBits (l.take 32) % 4294967296 := by
  by_cases h : l.length ≤ 32
  · rw [List.take_of_length_le h]
  · have hl : (l.take 32).length = 32 := by simp only [List.length_take]; omega
    conv => lhs; rw [← List.take_append_drop 32 l, packBits_append, hl]
    have : (2 : Nat) ^ 32 = 4294967296 := by norm_num
    rw [this, Nat.add_mul_mod_self_left]

theorem SerializeIsMicroBlockEmpty_congr (b1 b2 : List Bool) (hlen : b1.length = b2.length)
    (htake : b1.take 32 = b2.take 32) :
    SerializeIsMicroBlockEmpty b1 = SerializeIsMicroBlockEmpty b2 := by
  rw [SerializeIsMicroBlockEmpty_eq_take, SerializeIsMicroBlockEmpty_eq_take, hlen,
    packBits_mod_take, packBits_mod_take (b2.take _), List.take_take, List.take_take,
    Nat.min_comm, ← List.take_take, htake, List.take_take, Nat.min_comm]

theorem DeserializeIsMicroBlockEmpty_getElem? : ∀ (n arg i : Nat), i < n →
    (DeserializeIsMicroBlockEmpty n arg)[i]? = some (arg / 2 ^ i % 2 != 0) := by
  intro n
  induction n with
  | zero => intro arg i h; omega
  | succ n ih =>
    intro arg i h
    cases i with
    | zero => simp [DeserializeIsMicroBlockEmpty]
    | succ i =>
      simp only [DeserializeIsMicroBlockEmpty, List.getElem?_cons_succ]
      rw [ih (arg / 2) i (by omega), Nat.div_div_eq_div_mul, pow_succ, Nat.mul_comm]

theorem NAT.portGuard_eq_false (_port : Int) : NAT.portGuard _port = false := by
  unfold NAT.portGuard
  by_cases h : _port < 0
  · have : ¬ _port > 65535 := by omega
    simp [this]
  · simp [h]

theorem NAT.tryRandom_sent (U : NAT.UPnP) (_port : Int) :
    ∀ (n i : Nat) (sent : List NAT.Request),
      ∃ rest, (NAT.tryRandom U _port n i sent).2 = sent ++ rest := by
  intro n
  induction n with
  | zero => intro i sent; exact ⟨[], by simp [NAT.tryRandom]⟩
  | succ n ih =>
    intro i sent
    rw [NAT.tryRandom]
    split
    · exact ⟨_, rfl⟩
    · obtain ⟨rest, hrest⟩ := ih (i + 1)
        (sent ++ [.AddPortMapping (((U.rand i : Int) % (32768 - 1024)) + 1024) (some _port)
          .ethereum])
      exact ⟨_, by rw [hrest, List.append_assoc]⟩

theorem NAT.findMapped_sent (U : NAT.UPnP) :
    ∀ (n i : Nat) (sent : List NAT.Request),
      ∃ rest, (NAT.findMapped U n i sent).2 = sent ++ rest := by
  intro n
  induction n with
  | zero => intro i sent; exact ⟨[], by simp [NAT.findMapped]⟩
  | succ n ih =>
    intro i sent
    rw [NAT.findMapped]
    split
    · exact ⟨_, rfl⟩
    · obtain ⟨rest, hrest⟩ := ih (i + 1) (sent ++ [.GetGenericPortMappingEntry i])
      exact ⟨_, by rw [hrest, List.append_assoc]⟩

theorem NAT.addRedirect_requests (U : NAT.UPnP) (s : NAT.State) (_port : Int)
    (hinit : s.m_initialized = true) :
    ∃ rest, (NAT.addRedirect U s _port).requests
      = .AddPortMapping _port (some _port) .zilliqa :: rest := by
  unfold NAT.addRedirect
  simp only [hinit, NAT.portGuard_eq_false, Bool.not_true, Bool.false_eq_true, if_false]
  split
  · exact ⟨[], rfl⟩
  · obtain ⟨r1, h1⟩ := NAT.tryRandom_sent U _port 10 0
      [.AddPortMapping _port (some _port) .zilliqa]
    generalize NAT.tryRandom U _port 10 0 [.AddPortMapping _port (some _port) .zilliqa] = t at h1
    obtain ⟨res, sent2⟩ := t
    simp only at h1
    subst h1
    cases res with
    | some p => exact ⟨r1, rfl⟩
    | none =>
      simp only
      split
      · exact ⟨_, rfl⟩
      · obtain ⟨r2, h2⟩ := NAT.findMapped_sent U
          (U.GetPortMappingNumberOfEntries
            ([.AddPortMapping _port (some _port) .zilliqa] ++ r1
              ++ [.AddPortMapping _port none .zilliqa])) 0
          ([.AddPortMapping _port (some _port) .zilliqa] ++ r1
              ++ [.AddPortMapping _port none .zilliqa] ++ [.GetPortMappingNumberOfEntries])
        generalize NAT.findMapped U _ 0 _ = t2 at h2
        obtain ⟨res2, sent5⟩ := t2
        simp only at h2
        subst h2
        cases res2 <;> exact ⟨_, rfl⟩

theorem deserializeEntries_trace_inBounds (X : Externals H E) (src : List Byte)
    (hsz : src.length < 4294967296) :
    ∀ (n : Nat) (s : EntriesState), s.curOffset + 68 * n ≤ src.length →
      (∀ a ∈ s.trace, a.inBounds src.length = true) →
      ∀ a ∈ (deserializeEntries X src n s).2.trace, a.inBounds src.length = true := by
  intro n
  induction n with
  | zero => intro s _ htr; simpa [deserializeEntries] using htr
  | succ n ih =>
    intro s hcur htr
    rw [deserializeEntries]
    cases hg : X.GetNumber src s.curOffset with
    | none =>
      intro a ha
      simp only [List.mem_append, List.mem_singleton] at ha
      rcases ha with ha | rfl
      · exact htr a ha
      · simp only [Access.inBounds, SIZEOF_UINT32, decide_eq_true_eq]; omega
    | some v =>
      simp only [SIZEOF_UINT32, TRAN_HASH_SIZE, STATE_HASH_SIZE]
      rw [u32_of_lt (by omega : s.curOffset + 4 < 4294967296),
        u32_of_lt (by omega : s.curOffset + 4 + 32 < 4294967296),
        u32_of_lt (by omega : s.curOffset + 4 + 32 + 32 < 4294967296)]
      apply ih
      · simp only; omega
      · intro a ha
        simp only [List.mem_append, List.mem_cons, List.mem_singleton, List.not_mem_nil,
          or_false] at ha
        rcases ha with ha | rfl | rfl | rfl
        · exact htr a ha
        · simp only [Access.inBounds, SIZEOF_UINT32, decide_eq_true_eq]; omega
        · simp only [Access.inBounds, decide_eq_true_eq]; omega
        · simp only [Access.inBounds, decide_eq_true_eq]; omega

theorem Deserialize_trace_inBounds (X : Externals H E) (self : TxBlock H E) (src : List Byte)
    (offset : Nat) (h : H) (hdr : X.headerDeserialize src offset = some (0, h))
    (hlen : offset + X.SIZE + 4 + 68 * X.GetNumMicroBlockHashes h ≤ src.length)
    (hsz : src.length < 4294967296) :
    ∀ a ∈ (Deserialize X self src offset).trace, a.inBounds src.length = true := by
  have h0 : ∀ a ∈ [Access.header offset, Access.number (offset + X.SIZE)],
      a.inBounds src.length = true := by
    intro a ha
    simp only [List.mem_cons, List.mem_singleton, List.not_mem_nil, or_false] at ha
    rcases ha with rfl | rfl
    · rfl
    · simp only [Access.inBounds, SIZEOF_UINT32, decide_eq_true_eq]; omega
  unfold Deserialize
  simp only [hdr, ne_eq, not_true_eq_false, if_false, SIZEOF_UINT32]
  rw [u32_of_lt (by omega : offset + X.SIZE < 4294967296)]
  cases hg : X.GetNumber src (offset + X.SIZE) with
  | none => exact h0
  | some arg =>
    simp only
    rw [u32_of_lt (by omega : offset + X.SIZE + 4 < 4294967296)]
    have hloop := deserializeEntries_trace_inBounds X src hsz (X.GetNumMicroBlockHashes h)
      ⟨offset + X.SIZE + 4, self.m_shardIDs, self.m_microBlockHashes,
        [.header offset, .number (offset + X.SIZE)]⟩ (by simp only; omega) h0
    generalize deserializeEntries X src (X.GetNumMicroBlockHashes h)
      ⟨offset + X.SIZE + 4, self.m_shardIDs, self.m_microBlockHashes,
        [.header offset, .number (offset + X.SIZE)]⟩ = r at hloop ⊢
    obtain ⟨raised, s⟩ := r
    simp only at hloop
    have hall : ∀ a ∈ s.trace ++ [Access.base s.curOffset], a.inBounds src.length = true := by
      intro a ha
      simp only [List.mem_append, List.mem_singleton] at ha
      rcases ha with ha | rfl
      · exact hloop a ha
      · rfl
    cases raised with
    | true => exact hloop
    | false =>
      simp only
      cases hb : X.baseDeserialize self.m_cosigs src s.curOffset with
      | none => exact hall
      | some q => exact hall

theorem overflowBytes_length : overflowBytes.length = 2250 := by
  simp only [overflowBytes, List.length_cons, List.length_replicate]

end Lemmas

/-! ## The claims -/

section Claims

open TxBlock

variable {H E : Type}

/-- C1: a block built by the in-memory constructor whose hash-pair and shard-id
sequences have the header's count is encoded by `Serialize` (which returns whenever
`offset ≤ dst.size()`), and `Deserialize` on a default-constructed block, given the
bytes `Serialize` produced and the same offset, returns `0` with a block equal to the
original under `operator==` and with the same shard ids in the same order. The
collaborators are assumed to round-trip and all sizes to fit an `unsigned int`. -/
theorem Serialize_Deserialize_roundtrip (X : Externals H E) (hX : X.Lawful) (header : H)
    (isMicroBlockEmpty : List Bool) (microBlockHashes : List MicroBlockHashSet)
    (shardIDs : List Nat) (cosigs : E) (dst : List Byte) (offset : Nat)
    (hh : microBlockHashes.length = X.GetNumMicroBlockHashes header)
    (hs : shardIDs.length = X.GetNumMicroBlockHashes header)
    (hids : ∀ v ∈ shardIDs, v < 4294967296)
    (hfit : offset + (X.SIZE + 4 + 68 * microBlockHashes.length + X.baseSize cosigs)
      < 4294967296) :
    (offset ≤ dst.length → ∃ dst1 writes,
      Serialize X (construct header isMicroBlockEmpty microBlockHashes shardIDs cosigs) dst offset
        = .returned dst1
            (GetSerializedSize X
              (construct header isMicroBlockEmpty microBlockHashes shardIDs cosigs)) writes)
    ∧ ∀ dst1 ret writes,
      Serialize X (construct header isMicroBlockEmpty microBlockHashes shardIDs cosigs) dst offset
        = .returned dst1 ret writes →
      (Deserialize X (placeholder X) dst1 offset).ret = 0
      ∧ TxBlock.eq X (Deserialize X (placeholder X) dst1 offset).block
          (construct header isMicroBlockEmpty microBlockHashes shardIDs cosigs) = true
      ∧ (Deserialize X (placeholder X) dst1 offset).block.m_shardIDs = shardIDs := by
  have key : ∀ (P Q : List Byte), P.length = offset →
      (Deserialize X (placeholder X)
          (P ++ encode X (construct header isMicroBlockEmpty microBlockHashes shardIDs cosigs) ++ Q)
          offset).ret = 0
      ∧ TxBlock.eq X (Deserialize X (placeholder X)
          (P ++ encode X (construct header isMicroBlockEmpty microBlockHashes shardIDs cosigs) ++ Q)
          offset).block
          (construct header isMicroBlockEmpty microBlockHashes shardIDs cosigs) = true
      ∧ (Deserialize X (placeholder X)
          (P ++ encode X (construct header isMicroBlockEmpty microBlockHashes shardIDs cosigs) ++ Q)
          offset).block.m_shardIDs = shardIDs := by
    intro P Q hP
    obtain ⟨tr, htr⟩ := Deserialize_encode X hX (placeholder X)
      (construct header isMicroBlockEmpty microBlockHashes shardIDs cosigs) P Q offset hP hh hs
      hids hfit
    rw [htr]
    simp [TxBlock.eq, construct, placeholder, hX.headerEq_refl]
  constructor
  · intro hoff
    obtain ⟨w, hw, _⟩ := Serialize_returned X hX
      (construct header isMicroBlockEmpty microBlockHashes shardIDs cosigs) dst offset hh hs hoff
      hfit
    exact ⟨_, w, hw⟩
  · intro dst1 ret writes hser
    by_cases hoff : offset ≤ dst.length
    · obtain ⟨w, hw, _⟩ := Serialize_returned X hX
        (construct header isMicroBlockEmpty microBlockHashes shardIDs cosigs) dst offset hh hs
        hoff hfit
      rw [hw] at hser
      simp only [SerializeOutcome.returned.injEq] at hser
      rw [← hser.1]
      exact key _ _ (by simp only [List.length_take]; omega)
    · rcases Serialize_past_end X hX
        (construct header isMicroBlockEmpty microBlockHashes shardIDs cosigs) dst offset hh hs
        (by omega) hfit with hu | ⟨w, hw⟩
      · rw [hu] at hser
        exact absurd hser (by simp)
      · rw [hw] at hser
        simp only [SerializeOutcome.returned.injEq] at hser
        rw [← hser.1]
        exact key _ _ (by simp only [List.length_append, List.length_replicate]; omega)

/-- Witness for C1 on the two-entry sample block. -/
theorem Serialize_Deserialize_roundtrip_witness :
    demo.Lawful
    ∧ (0 ≤ ([] : List Byte).length → ∃ dst1 writes,
      Serialize demo sampleBlock [] 0
        = .returned dst1 (GetSerializedSize demo sampleBlock) writes)
    ∧ ∀ dst1 ret writes, Serialize demo sampleBlock [] 0 = .returned dst1 ret writes →
      (Deserialize demo (placeholder demo) dst1 0).ret = 0
      ∧ TxBlock.eq demo (Deserialize demo (placeholder demo) dst1 0).block sampleBlock = true
      ∧ (Deserialize demo (placeholder demo) dst1 0).block.m_shardIDs = [3, 7] :=
  ⟨demo_lawful,
    Serialize_Deserialize_roundtrip demo demo_lawful 2 [false, true]
      [⟨hashOf 1, hashOf 2⟩, ⟨hashOf 3, hashOf 4⟩] [3, 7] 9 [] 0 (by decide) (by decide)
      (by decide) (by decide)⟩

/-- C2 fails as stated: on a block whose header declares no entry while one hash pair
is held, `Serialize` stores 6 bytes and returns `GetSerializedSize() = 74`. -/
theorem Serialize_size_oracle_counterexample :
    Serialize demo mismatchedBlock [] 0
      = .returned ([0, 0, 0, 0, 0, 9] ++ List.replicate 68 0) 74 [(0, 1), (1, 4), (5, 1)]
    ∧ bytesWritten [(0, 1), (1, 4), (5, 1)] = 6
    ∧ GetSerializedSize demo mismatchedBlock = 74
    ∧ bytesWritten [(0, 1), (1, 4), (5, 1)] ≠ GetSerializedSize demo mismatchedBlock := by
  decide

/-- C2, amended: for a block whose hash-pair and shard-id sequences have the header's
count, with `offset ≤ dst.size()` and sizes that fit an `unsigned int`, `Serialize`
returns `GetSerializedSize()` and the number of bytes it stores (header, bitmap, 68 per
entry, envelope) equals that value. -/
theorem Serialize_size_oracle (X : Externals H E) (hX : X.Lawful) (b : TxBlock H E)
    (dst : List Byte) (offset : Nat)
    (hh : b.m_microBlockHashes.length = X.GetNumMicroBlockHashes b.m_header)
    (hs : b.m_shardIDs.length = X.GetNumMicroBlockHashes b.m_header)
    (hoff : offset ≤ dst.length)
    (hfit : offset + (X.SIZE + 4 + 68 * b.m_microBlockHashes.length + X.baseSize b.m_cosigs)
      < 4294967296) :
    ∃ dst1 writes, Serialize X b dst offset = .returned dst1 (GetSerializedSize X b) writes
      ∧ bytesWritten writes = GetSerializedSize X b := by
  obtain ⟨w, hw, hsum⟩ := Serialize_returned X hX b dst offset hh hs hoff hfit
  exact ⟨_, w, hw, hsum⟩

/-- Witness for the amended C2 on the two-entry sample block. -/
theorem Serialize_size_oracle_witness :
    demo.Lawful ∧ ∃ dst1 writes,
      Serialize demo sampleBlock [] 0 = .returned dst1 (GetSerializedSize demo sampleBlock) writes
        ∧ bytesWritten writes = GetSerializedSize demo sampleBlock :=
  ⟨demo_lawful,
    Serialize_size_oracle demo demo_lawful sampleBlock [] 0 (by decide) (by decide) (by decide)
      (by decide)⟩

/-- C3: for a block satisfying the count invariant and `offset ≤ dst.size()` (sizes
fitting an `unsigned int`), `Serialize` leaves the bytes before `offset` untouched and
the bytes from `offset` on are the header bytes, the 4 bitmap bytes, the entries in
index order (shard id, `txRootHash`, `stateDeltaHash`) and the envelope bytes; entry
`i` starts at `offset + SIZE + 4 + 68 * i`. -/
theorem Serialize_byte_layout (X : Externals H E) (hX : X.Lawful) (b : TxBlock H E)
    (dst : List Byte) (offset : Nat)
    (hh : b.m_microBlockHashes.length = X.GetNumMicroBlockHashes b.m_header)
    (hs : b.m_shardIDs.length = X.GetNumMicroBlockHashes b.m_header)
    (hoff : offset ≤ dst.length)
    (hfit : offset + (X.SIZE + 4 + 68 * b.m_microBlockHashes.length + X.baseSize b.m_cosigs)
      < 4294967296) :
    ∃ dst1 writes, Serialize X b dst offset = .returned dst1 (GetSerializedSize X b) writes
      ∧ dst1.take offset = dst.take offset
      ∧ (dst1.drop offset).take (GetSerializedSize X b)
          = X.headerBytes b.m_header
            ++ X.numberBytes (SerializeIsMicroBlockEmpty b.m_isMicroBlockEmpty)
            ++ entriesBytes X b.m_shardIDs b.m_microBlockHashes ++ X.baseBytes b.m_cosigs
      ∧ (X.headerBytes b.m_header).length = X.SIZE
      ∧ (X.numberBytes (SerializeIsMicroBlockEmpty b.m_isMicroBlockEmpty)).length = 4
      ∧ ∀ (i v : Nat) (hp : MicroBlockHashSet), b.m_shardIDs[i]? = some v →
          b.m_microBlockHashes[i]? = some hp →
          (dst1.drop (offset + X.SIZE + 4 + 68 * i)).take 68
            = X.numberBytes v ++ hp.m_txRootHash.bytes ++ hp.m_stateDeltaHash.bytes := by
  obtain ⟨w, hw, _⟩ := Serialize_returned X hX b dst offset hh hs hoff hfit
  have hsz := GetSerializedSize_of_lt X b (by omega)
  have hhb := hX.headerBytes_length b.m_header
  have hnb := hX.numberBytes_length (SerializeIsMicroBlockEmpty b.m_isMicroBlockEmpty)
  have hbb := hX.baseBytes_length b.m_cosigs
  have hel := entriesBytes_length X hX b.m_shardIDs b.m_microBlockHashes (by omega)
  have hP : (dst.take offset).length = offset := by simp only [List.length_take]; omega
  have hE : (encode X b).length = GetSerializedSize X b := by
    simp only [encode, List.length_append]; omega
  refine ⟨_, w, hw, ?_, ?_, hhb, hnb, ?_⟩
  · rw [List.append_assoc, List.take_append_of_le_length (by omega),
      List.take_of_length_le (by omega)]
  · have := take_drop_append (dst.take offset) (encode X b)
      ((resizeStep dst offset (GetSerializedSize X b)).drop (offset + GetSerializedSize X b))
      offset (GetSerializedSize X b) hP hE
    rw [this, encode]
  · intro i v hp hv hhp
    have hi : i < b.m_shardIDs.length := by
      by_contra hc
      rw [List.getElem?_eq_none (by omega)] at hv
      exact absurd hv (by simp)
    have hentry := entriesBytes_drop_take X hX b.m_shardIDs b.m_microBlockHashes i v hp hv hhp
    have e : dst.take offset ++ encode X b
          ++ (resizeStep dst offset (GetSerializedSize X b)).drop (offset + GetSerializedSize X b)
        = (dst.take offset ++ X.headerBytes b.m_header
            ++ X.numberBytes (SerializeIsMicroBlockEmpty b.m_isMicroBlockEmpty))
          ++ (entriesBytes X b.m_shardIDs b.m_microBlockHashes ++ (X.baseBytes b.m_cosigs
            ++ (resizeStep dst offset (GetSerializedSize X b)).drop
              (offset + GetSerializedSize X b))) := by
      simp [encode]
    have hl : (dst.take offset ++ X.headerBytes b.m_header
        ++ X.numberBytes (SerializeIsMicroBlockEmpty b.m_isMicroBlockEmpty)).length
        = offset + X.SIZE + 4 := by
      simp only [List.length_append]; omega
    rw [e, show offset + X.SIZE + 4 + 68 * i = (dst.take offset ++ X.headerBytes b.m_header
        ++ X.numberBytes (SerializeIsMicroBlockEmpty b.m_isMicroBlockEmpty)).length + 68 * i
        by rw [hl], List.drop_append, List.drop_append_of_le_length (by omega),
      List.take_append_of_le_length (by simp only [List.length_drop]; omega), hentry, entryBytes]

/-- Witness for C3 on the two-entry sample block. -/
theorem Serialize_byte_layout_witness :
    demo.Lawful ∧ ∃ dst1 writes,
      Serialize demo sampleBlock [] 0 = .returned dst1 (GetSerializedSize demo sampleBlock) writes
      ∧ dst1.take 0 = ([] : List Byte).take 0
      ∧ (dst1.drop 0).take (GetSerializedSize demo sampleBlock)
          = demo.headerBytes sampleBlock.m_header
            ++ demo.numberBytes (SerializeIsMicroBlockEmpty sampleBlock.m_isMicroBlockEmpty)
            ++ entriesBytes demo sampleBlock.m_shardIDs sampleBlock.m_microBlockHashes
            ++ demo.baseBytes sampleBlock.m_cosigs
      ∧ (demo.headerBytes sampleBlock.m_header).length = demo.SIZE
      ∧ (demo.numberBytes (SerializeIsMicroBlockEmpty sampleBlock.m_isMicroBlockEmpty)).length = 4
      ∧ ∀ (i v : Nat) (hp : MicroBlockHashSet), sampleBlock.m_shardIDs[i]? = some v →
          sampleBlock.m_microBlockHashes[i]? = some hp →
          (dst1.drop (0 + demo.SIZE + 4 + 68 * i)).take 68
            = demo.numberBytes v ++ hp.m_txRootHash.bytes ++ hp.m_stateDeltaHash.bytes :=
  ⟨demo_lawful,
    Serialize_byte_layout demo demo_lawful sampleBlock [] 0 (by decide) (by decide) (by decide)
      (by decide)⟩

/-- C4 fails on the code: with an empty buffer and `offset = 1` the unsigned difference
`dst.size() - offset` wraps to `2^32 - 1`, no resize happens, and the buffer is shorter
than `offset + GetSerializedSize()`. -/
theorem resizeStep_offset_past_end :
    GetSerializedSize demo (placeholder demo) = 6
    ∧ resizeStep [] 1 (GetSerializedSize demo (placeholder demo)) = []
    ∧ (resizeStep [] 1 (GetSerializedSize demo (placeholder demo))).length
        < 1 + GetSerializedSize demo (placeholder demo) := by
  decide

/-- C5 fails as stated: the size is computed from the number of hash pairs held, not
from the header's count. -/
theorem GetSerializedSize_counterexample :
    GetSerializedSize demo mismatchedBlock
      ≠ demo.SIZE + 4
        + demo.GetNumMicroBlockHashes mismatchedBlock.m_header * (4 + 32 + 32)
        + demo.baseSize mismatchedBlock.m_cosigs := by
  decide

/-- C5, amended: for a block whose hash-pair count equals the header's count and whose
size fits an `unsigned int`, `GetSerializedSize` is
`SIZE + 4 + count * (4 + 32 + 32) + BlockBase::GetSerializedSize()`. -/
theorem GetSerializedSize_eq (X : Externals H E) (b : TxBlock H E)
    (hh : b.m_microBlockHashes.length = X.GetNumMicroBlockHashes b.m_header)
    (hfit : X.SIZE + 4 + 68 * b.m_microBlockHashes.length + X.baseSize b.m_cosigs < 4294967296) :
    GetSerializedSize X b
      = X.SIZE + 4 + X.GetNumMicroBlockHashes b.m_header * (4 + 32 + 32)
        + X.baseSize b.m_cosigs := by
  rw [GetSerializedSize_of_lt X b hfit, ← hh]
  omega

/-- Witness for the amended C5 on the two-entry sample block. -/
theorem GetSerializedSize_eq_witness :
    GetSerializedSize demo sampleBlock
      = demo.SIZE + 4 + demo.GetNumMicroBlockHashes sampleBlock.m_header * (4 + 32 + 32)
        + demo.baseSize sampleBlock.m_cosigs :=
  GetSerializedSize_eq demo sampleBlock (by decide) (by decide)

/-- C6: for at most 32 bits, `SerializeIsMicroBlockEmpty` returns the sum of
`bits[i] * 2^i`; `[false, true]` packs to 2 and the empty sequence to 0. -/
theorem SerializeIsMicroBlockEmpty_value (bits : List Bool) (h : bits.length ≤ 32) :
    SerializeIsMicroBlockEmpty bits
        = ∑ i in Finset.range bits.length, (bits.getD i false).toNat * 2 ^ i
      ∧ SerializeIsMicroBlockEmpty bits < 4294967296
      ∧ SerializeIsMicroBlockEmpty [false, true] = 2
      ∧ SerializeIsMicroBlockEmpty [] = 0 := by
  refine ⟨?_, SerializeIsMicroBlockEmpty_lt bits, by decide, by decide⟩
  rw [SerializeIsMicroBlockEmpty_eq_packBits bits h, packBits_eq_sum]

/-- Witness for C6 on `[true, false, true, true]`. -/
theorem SerializeIsMicroBlockEmpty_value_witness :
    SerializeIsMicroBlockEmpty [true, false, true, true]
        = ∑ i in Finset.range 4, ([true, false, true, true].getD i false).toNat * 2 ^ i
      ∧ SerializeIsMicroBlockEmpty [true, false, true, true] < 4294967296
      ∧ SerializeIsMicroBlockEmpty [false, true] = 2
      ∧ SerializeIsMicroBlockEmpty [] = 0 :=
  SerializeIsMicroBlockEmpty_value [true, false, true, true] (by decide)

/-- C7: for at most 32 bits, unpacking the packed bitmap with the count set to the
length of the sequence gives the sequence back. -/
theorem DeserializeIsMicroBlockEmpty_SerializeIsMicroBlockEmpty (bits : List Bool)
    (h : bits.length ≤ 32) :
    DeserializeIsMicroBlockEmpty bits.length (SerializeIsMicroBlockEmpty bits) = bits := by
  rw [SerializeIsMicroBlockEmpty_eq_packBits bits h, DeserializeIsMicroBlockEmpty_packBits]

/-- Witness for C7 on `[true, false, true, true]`. -/
theorem DeserializeIsMicroBlockEmpty_SerializeIsMicroBlockEmpty_witness :
    DeserializeIsMicroBlockEmpty 4 (SerializeIsMicroBlockEmpty [true, false, true, true])
      = [true, false, true, true] :=
  DeserializeIsMicroBlockEmpty_SerializeIsMicroBlockEmpty [true, false, true, true] (by decide)

/-- C8 fails as stated: a buffer whose header declares 33 entries, long enough to hold
them all, is accepted with return value `0`. -/
theorem Deserialize_bitmap_overflow_counterexample :
    demo.headerDeserialize overflowBytes 0 = some (0, 33)
    ∧ 32 < demo.GetNumMicroBlockHashes 33
    ∧ overflowBytes.length = 1 + 4 + 33 * 68 + 1
    ∧ (Deserialize demo (placeholder demo) overflowBytes 0).ret = 0
    ∧ (Deserialize demo (placeholder demo) overflowBytes 0).ret ≠ -1 := by
  have hret := (Deserialize_no_raise demo (placeholder demo) overflowBytes 0 33
    overflowBytes_header (demo_GetNumber_ne_none overflowBytes)
    (fun e off => demo_baseDeserialize_ne_none e overflowBytes off)).1
  refine ⟨overflowBytes_header, by decide, ?_, hret, ?_⟩
  · simp only [overflowBytes, List.length_cons, List.length_replicate]
  · rw [hret]; decide

/-- C8, amended: when the decoded header declares more than 32 entries and the buffer
holds the bitmap and all declared entries (so that every read of `Deserialize` stays
inside it), `Deserialize` does not reject the input on account of the count: if no
external decoder raises, it returns `0` and has produced an emptiness sequence of the
declared length. -/
theorem Deserialize_accepts_bitmap_overflow (X : Externals H E) (self : TxBlock H E)
    (src : List Byte) (offset : Nat) (h : H)
    (hdr : X.headerDeserialize src offset = some (0, h))
    (_hn : 32 < X.GetNumMicroBlockHashes h)
    (hlen : offset + X.SIZE + 4 + 68 * X.GetNumMicroBlockHashes h ≤ src.length)
    (hsz : src.length < 4294967296)
    (hnum : ∀ off, X.GetNumber src off ≠ none)
    (hbase : ∀ e off, X.baseDeserialize e src off ≠ none) :
    (Deserialize X self src offset).ret = 0
      ∧ (Deserialize X self src offset).block.m_isMicroBlockEmpty.length
          = X.GetNumMicroBlockHashes h
      ∧ ∀ a ∈ (Deserialize X self src offset).trace, a.inBounds src.length = true := by
  have hr := Deserialize_no_raise X self src offset h hdr hnum hbase
  exact ⟨hr.1, hr.2.2, Deserialize_trace_inBounds X self src offset h hdr hlen hsz⟩

/-- Witness for the amended C8 on the 2250-byte buffer declaring 33 entries. -/
theorem Deserialize_accepts_bitmap_overflow_witness :
    0 + demo.SIZE + 4 + 68 * demo.GetNumMicroBlockHashes 33 ≤ overflowBytes.length
    ∧ (Deserialize demo (placeholder demo) overflowBytes 0).ret = 0
    ∧ (Deserialize demo (placeholder demo) overflowBytes 0).block.m_isMicroBlockEmpty.length
        = demo.GetNumMicroBlockHashes 33
    ∧ ∀ a ∈ (Deserialize demo (placeholder demo) overflowBytes 0).trace,
        a.inBounds overflowBytes.length = true :=
  have hlen : 0 + demo.SIZE + 4 + 68 * demo.GetNumMicroBlockHashes 33 ≤ overflowBytes.length := by
    rw [overflowBytes_length]; decide
  ⟨hlen,
    Deserialize_accepts_bitmap_overflow demo (placeholder demo) overflowBytes 0 33
      overflowBytes_header (by decide) hlen (by rw [overflowBytes_length]; decide)
      (demo_GetNumber_ne_none overflowBytes)
      (fun e off => demo_baseDeserialize_ne_none e overflowBytes off)⟩

set_option maxRecDepth 100000 in
/-- C9 fails on the code: on the first 20 bytes of the 142-byte encoding of the sample
block, `Deserialize` returns `0` and its first `std::copy` reads bytes 9 to 40 of a
20-byte buffer. -/
theorem Deserialize_truncated_reads_past_end :
    Serialize demo sampleBlock [] 0
      = .returned sampleBytes 142
          [(0, 1), (1, 4), (5, 4), (9, 32), (41, 32), (73, 4), (77, 32), (109, 32), (141, 1)]
    ∧ (sampleBytes.take 20).length = 20
    ∧ (Deserialize demo (placeholder demo) (sampleBytes.take 20) 0).ret = 0
    ∧ (Deserialize demo (placeholder demo) (sampleBytes.take 20) 0).trace
        = [.header 0, .number 1, .number 5, .copy 9 32, .copy 41 32, .number 73, .copy 77 32,
            .copy 109 32, .base 141]
    ∧ (sampleBytes.take 20).length < 9 + 32 := by
  decide

/-- C10: when the header decoder reports failure (a non-zero return value or an
exception), `Deserialize` returns `-1`, its only access to the buffer is the header
decoder's call, and the receiver is unchanged; the byte-buffer constructor then yields
the default-constructed block. -/
theorem Deserialize_header_failure (X : Externals H E) (self : TxBlock H E) (src : List Byte)
    (offset : Nat) (hfail : ∀ st h, X.headerDeserialize src offset = some (st, h) → st ≠ 0) :
    Deserialize X self src offset = ⟨-1, self, [.header offset]⟩
      ∧ fromBytes X src offset = placeholder X := by
  have key : ∀ b : TxBlock H E, Deserialize X b src offset = ⟨-1, b, [.header offset]⟩ := by
    intro b
    unfold Deserialize
    cases hd : X.headerDeserialize src offset with
    | none => rfl
    | some p =>
      obtain ⟨st, h⟩ := p
      simp only [hfail st h hd, ne_eq, not_false_eq_true, if_true]
  refine ⟨key self, ?_⟩
  rw [fromBytes, key]

/-- Witness for C10 on the empty buffer, whose header cannot be decoded. -/
theorem Deserialize_header_failure_witness :
    Deserialize demo sampleBlock [] 0 = ⟨-1, sampleBlock, [.header 0]⟩
      ∧ fromBytes demo [] 0 = placeholder demo :=
  Deserialize_header_failure demo sampleBlock [] 0 (by simp [demo, demoDecodeByte])

set_option maxRecDepth 100000 in
/-- C11 fails on the code: on the encoding of the sample block without its last byte the
header and both shard entries decode inside the buffer, the envelope decoder returns
`-1`, and `Deserialize` returns `0`. -/
theorem Deserialize_ignores_envelope_failure :
    (sampleBytes.take 141).length = 141
    ∧ demo.headerDeserialize (sampleBytes.take 141) 0 = some (0, 2)
    ∧ (Deserialize demo (placeholder demo) (sampleBytes.take 141) 0).trace
        = [.header 0, .number 1, .number 5, .copy 9 32, .copy 41 32, .number 73, .copy 77 32,
            .copy 109 32, .base 141]
    ∧ demo.baseDeserialize demo.cosigsDefault (sampleBytes.take 141) 141 = some (-1, 0)
    ∧ (Deserialize demo (placeholder demo) (sampleBytes.take 141) 0).ret = 0 := by
  decide

/-- C12: whenever `Deserialize` on a default-constructed block returns `0`, the block
holds as many hash pairs, shard ids and emptiness bits as its header declares. -/
theorem Deserialize_count_invariant (X : Externals H E) (src : List Byte) (offset : Nat)
    (hret : (Deserialize X (placeholder X) src offset).ret = 0) :
    (Deserialize X (placeholder X) src offset).block.m_microBlockHashes.length
        = X.GetNumMicroBlockHashes (Deserialize X (placeholder X) src offset).block.m_header
    ∧ (Deserialize X (placeholder X) src offset).block.m_shardIDs.length
        = X.GetNumMicroBlockHashes (Deserialize X (placeholder X) src offset).block.m_header
    ∧ (Deserialize X (placeholder X) src offset).block.m_isMicroBlockEmpty.length
        = X.GetNumMicroBlockHashes (Deserialize X (placeholder X) src offset).block.m_header := by
  obtain ⟨h, arg, s, st, e, _, _, hloop, _, hblock⟩ :=
    Deserialize_of_ret_zero X (placeholder X) src offset hret
  have hlen := deserializeEntries_lengths X src (X.GetNumMicroBlockHashes h) _
    (by rw [hloop])
  rw [hloop] at hlen
  rw [hblock]
  simp only [placeholder, List.length_nil, Nat.zero_add] at hlen
  exact ⟨hlen.2, hlen.1, DeserializeIsMicroBlockEmpty_length _ _⟩

set_option maxRecDepth 100000 in
/-- Witness for C12 on the encoding of the sample block. -/
theorem Deserialize_count_invariant_witness :
    (Deserialize demo (placeholder demo) sampleBytes 0).block.m_microBlockHashes.length
        = demo.GetNumMicroBlockHashes (Deserialize demo (placeholder demo) sampleBytes 0).block.m_header
    ∧ (Deserialize demo (placeholder demo) sampleBytes 0).block.m_shardIDs.length
        = demo.GetNumMicroBlockHashes (Deserialize demo (placeholder demo) sampleBytes 0).block.m_header
    ∧ (Deserialize demo (placeholder demo) sampleBytes 0).block.m_isMicroBlockEmpty.length
        = demo.GetNumMicroBlockHashes (Deserialize demo (placeholder demo) sampleBytes 0).block.m_header :=
  Deserialize_count_invariant demo sampleBytes 0 (by decide)

/-- C13 fails as stated: with a header declaring no entry and one hash pair given, the
constructor produces a block holding that hash pair, and logs nothing. -/
theorem construct_mismatch_counterexample :
    [(⟨hashOf 1, hashOf 2⟩ : MicroBlockHashSet)].length ≠ demo.GetNumMicroBlockHashes 0
    ∧ (construct (0 : Byte) [] [⟨hashOf 1, hashOf 2⟩] [] (9 : Byte)).m_microBlockHashes
        = [⟨hashOf 1, hashOf 2⟩]
    ∧ (construct (0 : Byte) [] [⟨hashOf 1, hashOf 2⟩] [] (9 : Byte)).m_microBlockHashes.length
        ≠ demo.GetNumMicroBlockHashes
            (construct (0 : Byte) [] [⟨hashOf 1, hashOf 2⟩] [] (9 : Byte)).m_header
    ∧ constructWarns demo 0 [⟨hashOf 1, hashOf 2⟩] [] = false := by
  decide

/-- C13, amended: for a hash-pair sequence whose length differs from the header's count
the constructor does not fail; it produces the block holding exactly the five arguments,
and logs a warning when the shard-id count differs from the header's count as well. -/
theorem construct_keeps_sequences (X : Externals H E) (header : H)
    (isMicroBlockEmpty : List Bool) (microBlockHashes : List MicroBlockHashSet)
    (shardIDs : List Nat) (cosigs : E)
    (hne : microBlockHashes.length ≠ X.GetNumMicroBlockHashes header) :
    (construct header isMicroBlockEmpty microBlockHashes shardIDs cosigs).m_header = header
    ∧ (construct header isMicroBlockEmpty microBlockHashes shardIDs cosigs).m_isMicroBlockEmpty
        = isMicroBlockEmpty
    ∧ (construct header isMicroBlockEmpty microBlockHashes shardIDs cosigs).m_microBlockHashes
        = microBlockHashes
    ∧ (construct header isMicroBlockEmpty microBlockHashes shardIDs cosigs).m_shardIDs = shardIDs
    ∧ (construct header isMicroBlockEmpty microBlockHashes shardIDs cosigs).m_cosigs = cosigs
    ∧ (construct header isMicroBlockEmpty microBlockHashes shardIDs cosigs).m_microBlockHashes.length
        ≠ X.GetNumMicroBlockHashes
            (construct header isMicroBlockEmpty microBlockHashes shardIDs cosigs).m_header
    ∧ (shardIDs.length ≠ X.GetNumMicroBlockHashes header →
        constructWarns X header microBlockHashes shardIDs = true) := by
  refine ⟨rfl, rfl, rfl, rfl, rfl, hne, ?_⟩
  intro hs
  simp only [constructWarns, Bool.and_eq_true, decide_eq_true_eq]
  exact ⟨fun h => hne h.symm, fun h => hs h.symm⟩

/-- Witness for the amended C13 on a header declaring one entry, two hash pairs and three
shard ids. -/
theorem construct_keeps_sequences_witness :
    (construct (1 : Byte) [true] [⟨hashOf 1, hashOf 2⟩, ⟨hashOf 3, hashOf 4⟩] [3, 7, 8]
        (9 : Byte)).m_header = 1
    ∧ (construct (1 : Byte) [true] [⟨hashOf 1, hashOf 2⟩, ⟨hashOf 3, hashOf 4⟩] [3, 7, 8]
        (9 : Byte)).m_isMicroBlockEmpty = [true]
    ∧ (construct (1 : Byte) [true] [⟨hashOf 1, hashOf 2⟩, ⟨hashOf 3, hashOf 4⟩] [3, 7, 8]
        (9 : Byte)).m_microBlockHashes = [⟨hashOf 1, hashOf 2⟩, ⟨hashOf 3, hashOf 4⟩]
    ∧ (construct (1 : Byte) [true] [⟨hashOf 1, hashOf 2⟩, ⟨hashOf 3, hashOf 4⟩] [3, 7, 8]
        (9 : Byte)).m_shardIDs = [3, 7, 8]
    ∧ (construct (1 : Byte) [true] [⟨hashOf 1, hashOf 2⟩, ⟨hashOf 3, hashOf 4⟩] [3, 7, 8]
        (9 : Byte)).m_cosigs = 9
    ∧ (construct (1 : Byte) [true] [⟨hashOf 1, hashOf 2⟩, ⟨hashOf 3, hashOf 4⟩] [3, 7, 8]
        (9 : Byte)).m_microBlockHashes.length
        ≠ demo.GetNumMicroBlockHashes
            (construct (1 : Byte) [true] [⟨hashOf 1, hashOf 2⟩, ⟨hashOf 3, hashOf 4⟩] [3, 7, 8]
              (9 : Byte)).m_header
    ∧ (([3, 7, 8] : List Nat).length ≠ demo.GetNumMicroBlockHashes 1 →
        constructWarns demo 1 [⟨hashOf 1, hashOf 2⟩, ⟨hashOf 3, hashOf 4⟩] [3, 7, 8] = true) :=
  construct_keeps_sequences demo 1 [true] [⟨hashOf 1, hashOf 2⟩, ⟨hashOf 3, hashOf 4⟩] [3, 7, 8] 9
    (by decide)

set_option maxRecDepth 100000 in
/-- C14 fails as stated: for a block whose header declares one entry while two hash pairs
and three shard ids are held, `Serialize` logs its warning, writes the header, the bitmap,
one entry and the envelope, and returns 142. -/
theorem Serialize_mismatch_counterexample :
    oversizedBlock.m_microBlockHashes.length
        ≠ demo.GetNumMicroBlockHashes oversizedBlock.m_header
    ∧ oversizedBlock.m_shardIDs.length ≠ demo.GetNumMicroBlockHashes oversizedBlock.m_header
    ∧ SerializeWarns demo oversizedBlock = true
    ∧ Serialize demo oversizedBlock [] 0
        = .returned ([1] ++ [1, 0, 0, 0] ++ [3, 0, 0, 0] ++ List.replicate 32 1
            ++ List.replicate 32 2 ++ [9] ++ List.replicate 68 0) 142
          [(0, 1), (1, 4), (5, 4), (9, 32), (41, 32), (73, 1)] := by
  decide

/-- C14, amended: with at least as many shard ids as the header declares (and
`offset ≤ dst.size()`, sizes fitting an `unsigned int`), `Serialize` does not reject a
block holding at least as many hash pairs as the header declares: it writes the header,
the bitmap, the declared number of entries and the envelope and returns
`GetSerializedSize()`. It fails only when fewer hash pairs are held than declared, by the
exception `vector::at` raises. -/
theorem Serialize_mismatch (X : Externals H E) (hX : X.Lawful) (b : TxBlock H E)
    (dst : List Byte) (offset : Nat)
    (hs : X.GetNumMicroBlockHashes b.m_header ≤ b.m_shardIDs.length)
    (hoff : offset ≤ dst.length)
    (hfit : offset + (X.SIZE + 4 + 68 * b.m_microBlockHashes.length + X.baseSize b.m_cosigs)
      < 4294967296) :
    (X.GetNumMicroBlockHashes b.m_header ≤ b.m_microBlockHashes.length →
      ∃ tail writes, Serialize X b dst offset
        = .returned (dst.take offset ++ (X.headerBytes b.m_header
            ++ X.numberBytes (SerializeIsMicroBlockEmpty b.m_isMicroBlockEmpty)
            ++ entriesBytes X (b.m_shardIDs.take (X.GetNumMicroBlockHashes b.m_header))
                (b.m_microBlockHashes.take (X.GetNumMicroBlockHashes b.m_header))
            ++ X.baseBytes b.m_cosigs) ++ tail)
          (GetSerializedSize X b) writes
        ∧ bytesWritten writes
          = X.SIZE + 4 + 68 * X.GetNumMicroBlockHashes b.m_header + X.baseSize b.m_cosigs)
    ∧ (b.m_microBlockHashes.length < X.GetNumMicroBlockHashes b.m_header →
      ∃ d writes, Serialize X b dst offset = .threw d writes) := by
  constructor
  · intro hh
    exact Serialize_returned_of_le X hX b dst offset hh hs hoff hfit
  · intro hh
    exact Serialize_threw X hX b dst offset hh (by omega) hoff hfit

/-- Witness for the amended C14 on the block that declares one entry and holds two. -/
theorem Serialize_mismatch_witness :
    demo.Lawful
    ∧ (demo.GetNumMicroBlockHashes oversizedBlock.m_header
        ≤ oversizedBlock.m_microBlockHashes.length →
      ∃ tail writes, Serialize demo oversizedBlock [] 0
        = .returned (([] : List Byte).take 0 ++ (demo.headerBytes oversizedBlock.m_header
            ++ demo.numberBytes (SerializeIsMicroBlockEmpty oversizedBlock.m_isMicroBlockEmpty)
            ++ entriesBytes demo
                (oversizedBlock.m_shardIDs.take (demo.GetNumMicroBlockHashes oversizedBlock.m_header))
                (oversizedBlock.m_microBlockHashes.take
                  (demo.GetNumMicroBlockHashes oversizedBlock.m_header))
            ++ demo.baseBytes oversizedBlock.m_cosigs) ++ tail)
          (GetSerializedSize demo oversizedBlock) writes
        ∧ bytesWritten writes
          = demo.SIZE + 4 + 68 * demo.GetNumMicroBlockHashes oversizedBlock.m_header
            + demo.baseSize oversizedBlock.m_cosigs)
    ∧ (oversizedBlock.m_microBlockHashes.length
        < demo.GetNumMicroBlockHashes oversizedBlock.m_header →
      ∃ d writes, Serialize demo oversizedBlock [] 0 = .threw d writes) :=
  ⟨demo_lawful,
    Serialize_mismatch demo demo_lawful oversizedBlock [] 0 (by decide) (by decide) (by decide)⟩

/-- C15: `a == b` holds exactly when the headers are equal under the header's `==` and
the hash-pair sequences are equal; replacing the shard ids, the emptiness bits and the
co-signatures of either block does not change the result. -/
theorem TxBlock_eq_iff (X : Externals H E) (a b : TxBlock H E) :
    (TxBlock.eq X a b = true
      ↔ X.headerEq a.m_header b.m_header = true ∧ a.m_microBlockHashes = b.m_microBlockHashes)
    ∧ (∀ (bits bits1 : List Bool) (ids ids1 : List Nat) (e e1 : E),
        TxBlock.eq X ⟨a.m_header, bits, a.m_microBlockHashes, ids, e⟩
            ⟨b.m_header, bits1, b.m_microBlockHashes, ids1, e1⟩
          = TxBlock.eq X a b)
    ∧ (∀ (bits : List Bool) (ids : List Nat) (e : E),
        X.headerEq a.m_header a.m_header = true →
        TxBlock.eq X a ⟨a.m_header, bits, a.m_microBlockHashes, ids, e⟩ = true) := by
  refine ⟨?_, ?_, ?_⟩
  · simp [TxBlock.eq]
  · intro _ _ _ _ _ _
    rfl
  · intro _ _ _ h
    simp [TxBlock.eq, h]

/-- Witness for C15: the sample block equals the block with its header and hash pairs but
no shard ids, no emptiness bits and other co-signatures. -/
theorem TxBlock_eq_iff_witness :
    TxBlock.eq demo sampleBlock
      ⟨sampleBlock.m_header, [], sampleBlock.m_microBlockHashes, [], 0⟩ = true :=
  (TxBlock_eq_iff demo sampleBlock sampleBlock).2.2 [] [] 0 (by decide)

/-- C16: when the header's and the hash pair's `<` are strict total orders, `>` on
headers is the converse of `<`, and the header's `==` holds exactly for equal headers,
exactly one of `a < b`, `a == b`, `a > b` holds, `a > b` being `!(a == b || a < b)`. -/
theorem lt_eq_gt_trichotomy (X : Externals H E) (O : Orderings H) (hO : O.StrictTotal)
    (heq : ∀ x y, X.headerEq x y = true ↔ x = y) (a b : TxBlock H E) :
    (TxBlock.lt O a b = true ∧ TxBlock.eq X a b = false ∧ TxBlock.gt X O a b = false)
    ∨ (TxBlock.lt O a b = false ∧ TxBlock.eq X a b = true ∧ TxBlock.gt X O a b = false)
    ∨ (TxBlock.lt O a b = false ∧ TxBlock.eq X a b = false ∧ TxBlock.gt X O a b = true) := by
  have hexcl : TxBlock.eq X a b = true → TxBlock.lt O a b = false := by
    intro he
    simp only [TxBlock.eq, Bool.and_eq_true, decide_eq_true_eq] at he
    rw [lt_of_header_eq O hO a b ((heq _ _).1 he.1), he.2]
    exact vectorLt_irrefl _ hO.hashLt_irrefl _
  unfold TxBlock.gt
  cases he : TxBlock.eq X a b with
  | true => simp [hexcl he]
  | false => cases hl : TxBlock.lt O a b <;> simp

/-- Witness for C16 on the sample block and the block with one hash pair. -/
theorem lt_eq_gt_trichotomy_witness :
    (TxBlock.lt demoOrderings sampleBlock mismatchedBlock = true
        ∧ TxBlock.eq demo sampleBlock mismatchedBlock = false
        ∧ TxBlock.gt demo demoOrderings sampleBlock mismatchedBlock = false)
    ∨ (TxBlock.lt demoOrderings sampleBlock mismatchedBlock = false
        ∧ TxBlock.eq demo sampleBlock mismatchedBlock = true
        ∧ TxBlock.gt demo demoOrderings sampleBlock mismatchedBlock = false)
    ∨ (TxBlock.lt demoOrderings sampleBlock mismatchedBlock = false
        ∧ TxBlock.eq demo sampleBlock mismatchedBlock = false
        ∧ TxBlock.gt demo demoOrderings sampleBlock mismatchedBlock = true) :=
  lt_eq_gt_trichotomy demo demoOrderings demoOrderings_strictTotal demo_headerEq_iff
    sampleBlock mismatchedBlock

/-- C17: when the header's `<` is a strict total order with `>` its converse and the hash
pair's `<` is a strict total order, `operator<` on blocks is the header order followed,
for equal headers, by the lexicographic order of the hash-pair sequences, and it is
transitive. -/
theorem lt_transitive (O : Orderings H) (hO : O.StrictTotal) (a b c : TxBlock H E)
    (hab : TxBlock.lt O a b = true) (hbc : TxBlock.lt O b c = true) :
    TxBlock.lt O a c = true
    ∧ (TxBlock.lt O a c = true
        ↔ O.headerLt a.m_header c.m_header = true
          ∨ (O.headerLt a.m_header c.m_header = false ∧ O.headerGt a.m_header c.m_header = false
            ∧ vectorLt O.hashLt a.m_microBlockHashes c.m_microBlockHashes = true)) := by
  have hac : TxBlock.lt O a c = true := by
    rw [lt_iff O hO] at hab hbc ⊢
    rcases hab with h1 | ⟨e1, v1⟩
    · rcases hbc with h2 | ⟨e2, _⟩
      · exact Or.inl (hO.headerLt_trans _ _ _ h1 h2)
      · exact Or.inl (e2 ▸ h1)
    · rcases hbc with h2 | ⟨e2, v2⟩
      · exact Or.inl (e1 ▸ h2)
      · exact Or.inr ⟨e1.trans e2,
          vectorLt_trans _ hO.hashLt_irrefl hO.hashLt_trans hO.hashLt_total _ _ _ v1 v2⟩
  refine ⟨hac, ?_⟩
  rw [lt_iff O hO]
  constructor
  · rintro (h | ⟨e, v⟩)
    · exact Or.inl h
    · exact Or.inr ⟨by rw [e, hO.headerLt_irrefl], by rw [hO.headerGt_eq, e, hO.headerLt_irrefl], v⟩
  · rintro (h | ⟨h1, h2, v⟩)
    · exact Or.inl h
    · rw [hO.headerGt_eq] at h2
      exact Or.inr ⟨hO.headerLt_total _ _ h1 h2, v⟩

set_option maxRecDepth 100000 in
/-- Witness for C17: the block without entries, the one-entry block and the sample block. -/
theorem lt_transitive_witness :
    TxBlock.lt demoOrderings mismatchedBlock oversizedBlock = true
    ∧ TxBlock.lt demoOrderings oversizedBlock sampleBlock = true
    ∧ TxBlock.lt demoOrderings mismatchedBlock sampleBlock = true
    ∧ (TxBlock.lt demoOrderings mismatchedBlock sampleBlock = true
        ↔ demoOrderings.headerLt mismatchedBlock.m_header sampleBlock.m_header = true
          ∨ (demoOrderings.headerLt mismatchedBlock.m_header sampleBlock.m_header = false
            ∧ demoOrderings.headerGt mismatchedBlock.m_header sampleBlock.m_header = false
            ∧ vectorLt demoOrderings.hashLt mismatchedBlock.m_microBlockHashes
                sampleBlock.m_microBlockHashes = true)) :=
  ⟨by decide, by decide,
    lt_transitive demoOrderings demoOrderings_strictTotal mismatchedBlock oversizedBlock
      sampleBlock (by decide) (by decide)⟩

/-- C18: for every `n > 32`, two different sequences of length `n` pack to the same
integer, the packed value of a sequence of length `n` depends only on its entries 0 to 31,
and unpacking any 32-bit integer with count `n` gives a sequence of length `n` whose
entries from index 32 on are all `false`. -/
theorem bitmap_loses_entries_beyond_width (n : Nat) (hn : 32 < n) :
    (∃ b1 b2 : List Bool, b1.length = n ∧ b2.length = n ∧ b1 ≠ b2
      ∧ SerializeIsMicroBlockEmpty b1 = SerializeIsMicroBlockEmpty b2)
    ∧ (∀ b1 b2 : List Bool, b1.length = n → b2.length = n → b1.take 32 = b2.take 32 →
      SerializeIsMicroBlockEmpty b1 = SerializeIsMicroBlockEmpty b2)
    ∧ (∀ arg : Nat, arg < 4294967296 →
      (DeserializeIsMicroBlockEmpty n arg).length = n
      ∧ ∀ i : Nat, 32 ≤ i → i < n → (DeserializeIsMicroBlockEmpty n arg)[i]? = some false) := by
  refine ⟨?_, ?_, ?_⟩
  · refine ⟨List.replicate n false, List.replicate (n - 1) false ++ [true], by simp,
      by simp; omega, ?_, ?_⟩
    · intro h
      have hmem : true ∈ List.replicate n false := by rw [h]; simp
      simp at hmem
    · apply SerializeIsMicroBlockEmpty_congr
      · simp; omega
      · rw [List.take_append_of_le_length (by simp; omega), List.take_replicate,
          List.take_replicate]
        congr 1
        omega
  · intro b1 b2 h1 h2 ht
    exact SerializeIsMicroBlockEmpty_congr b1 b2 (by omega) ht
  · intro arg harg
    refine ⟨DeserializeIsMicroBlockEmpty_length n arg, ?_⟩
    intro i hi hin
    rw [DeserializeIsMicroBlockEmpty_getElem? n arg i hin]
    have hpow : 4294967296 ≤ 2 ^ i := by
      calc 4294967296 = 2 ^ 32 := by norm_num
        _ ≤ 2 ^ i := Nat.pow_le_pow_right (by norm_num) hi
    rw [Nat.div_eq_of_lt (by omega)]
    rfl

/-- Witness for C18 with 33 entries. -/
theorem bitmap_loses_entries_beyond_width_witness :
    (∃ b1 b2 : List Bool, b1.length = 33 ∧ b2.length = 33 ∧ b1 ≠ b2
      ∧ SerializeIsMicroBlockEmpty b1 = SerializeIsMicroBlockEmpty b2)
    ∧ (∀ b1 b2 : List Bool, b1.length = 33 → b2.length = 33 → b1.take 32 = b2.take 32 →
      SerializeIsMicroBlockEmpty b1 = SerializeIsMicroBlockEmpty b2)
    ∧ (∀ arg : Nat, arg < 4294967296 →
      (DeserializeIsMicroBlockEmpty 33 arg).length = 33
      ∧ ∀ i : Nat, 32 ≤ i → i < 33 →
        (DeserializeIsMicroBlockEmpty 33 arg)[i]? = some false) :=
  bitmap_loses_entries_beyond_width 33 (by decide)

/-- C19: a successful `Deserialize` on any receiver appends: the receiver's hash pairs and
shard ids are kept and followed by the `n` decoded ones, `n` being the count of the
decoded header, while the header and the emptiness sequence are replaced; so a receiver
that already held a hash pair ends with more hash pairs than its header declares. -/
theorem Deserialize_appends (X : Externals H E) (self : TxBlock H E) (src : List Byte)
    (offset : Nat) (hret : (Deserialize X self src offset).ret = 0) :
    ∃ (h : H) (arg : Nat) (shardIDs : List Nat) (hashes : List MicroBlockHashSet),
      X.headerDeserialize src offset = some (0, h)
      ∧ X.GetNumber src (u32 (offset + X.SIZE)) = some arg
      ∧ shardIDs = (deserializeEntries X src (X.GetNumMicroBlockHashes h)
          ⟨u32 (u32 (offset + X.SIZE) + SIZEOF_UINT32), [], [], []⟩).2.shardIDs
      ∧ hashes = (deserializeEntries X src (X.GetNumMicroBlockHashes h)
          ⟨u32 (u32 (offset + X.SIZE) + SIZEOF_UINT32), [], [], []⟩).2.hashes
      ∧ shardIDs.length = X.GetNumMicroBlockHashes h
      ∧ hashes.length = X.GetNumMicroBlockHashes h
      ∧ (Deserialize X self src offset).block.m_header = h
      ∧ (Deserialize X self src offset).block.m_isMicroBlockEmpty
          = DeserializeIsMicroBlockEmpty (X.GetNumMicroBlockHashes h) arg
      ∧ (Deserialize X self src offset).block.m_microBlockHashes
          = self.m_microBlockHashes ++ hashes
      ∧ (Deserialize X self src offset).block.m_shardIDs = self.m_shardIDs ++ shardIDs
      ∧ (0 < self.m_microBlockHashes.length →
          (Deserialize X self src offset).block.m_microBlockHashes.length
            ≠ X.GetNumMicroBlockHashes (Deserialize X self src offset).block.m_header) := by
  obtain ⟨h, arg, s, st, e, hdr, hnum, hloop, _, hblock⟩ :=
    Deserialize_of_ret_zero X self src offset hret
  have hlift := deserializeEntries_lift X src (X.GetNumMicroBlockHashes h)
    ⟨u32 (u32 (offset + X.SIZE) + SIZEOF_UINT32), self.m_shardIDs, self.m_microBlockHashes,
      [.header offset, .number (u32 (offset + X.SIZE))]⟩
  rw [hloop] at hlift
  simp only [Prod.mk.injEq] at hlift
  obtain ⟨hflag, hs⟩ := hlift
  have hlen := deserializeEntries_lengths X src (X.GetNumMicroBlockHashes h)
    ⟨u32 (u32 (offset + X.SIZE) + SIZEOF_UINT32), [], [], []⟩ hflag.symm
  simp only [List.length_nil, Nat.zero_add] at hlen
  refine ⟨h, arg, _, _, hdr, hnum, rfl, rfl, hlen.1, hlen.2, ?_, ?_, ?_, ?_, ?_⟩
  · rw [hblock]
  · rw [hblock]
  · rw [hblock, hs]
  · rw [hblock, hs]
  · intro hk
    rw [hblock, hs]
    simp only [List.length_append, hlen.2]
    omega

set_option maxRecDepth 100000 in
/-- Witness for C19: decoding the sample encoding into the sample block itself. -/
theorem Deserialize_appends_witness :
    ∃ (h : Byte) (arg : Nat) (shardIDs : List Nat) (hashes : List MicroBlockHashSet),
      demo.headerDeserialize sampleBytes 0 = some (0, h)
      ∧ demo.GetNumber sampleBytes (u32 (0 + demo.SIZE)) = some arg
      ∧ shardIDs = (deserializeEntries demo sampleBytes (demo.GetNumMicroBlockHashes h)
          ⟨u32 (u32 (0 + demo.SIZE) + SIZEOF_UINT32), [], [], []⟩).2.shardIDs
      ∧ hashes = (deserializeEntries demo sampleBytes (demo.GetNumMicroBlockHashes h)
          ⟨u32 (u32 (0 + demo.SIZE) + SIZEOF_UINT32), [], [], []⟩).2.hashes
      ∧ shardIDs.length = demo.GetNumMicroBlockHashes h
      ∧ hashes.length = demo.GetNumMicroBlockHashes h
      ∧ (Deserialize demo sampleBlock sampleBytes 0).block.m_header = h
      ∧ (Deserialize demo sampleBlock sampleBytes 0).block.m_isMicroBlockEmpty
          = DeserializeIsMicroBlockEmpty (demo.GetNumMicroBlockHashes h) arg
      ∧ (Deserialize demo sampleBlock sampleBytes 0).block.m_microBlockHashes
          = sampleBlock.m_microBlockHashes ++ hashes
      ∧ (Deserialize demo sampleBlock sampleBytes 0).block.m_shardIDs
          = sampleBlock.m_shardIDs ++ shardIDs
      ∧ (0 < sampleBlock.m_microBlockHashes.length →
          (Deserialize demo sampleBlock sampleBytes 0).block.m_microBlockHashes.length
            ≠ demo.GetNumMicroBlockHashes (Deserialize demo sampleBlock sampleBytes 0).block.m_header) :=
  Deserialize_appends demo sampleBlock sampleBytes 0 (by decide)

/-- C20: the range test `_port < 0 && _port > 65535` is false for every port. On an
initialized `NAT`, `addRedirect` therefore always begins with the direct mapping request
and, when that request succeeds, inserts the port into `m_reg` and returns it, and
`removeRedirect` always sends the delete request and erases the port; on an uninitialized
`NAT`, `addRedirect` returns `-1` and `removeRedirect` leaves the object unchanged. -/
theorem NAT_port_guard_never_rejects (U : NAT.UPnP) (s : NAT.State) (_port : Int) :
    NAT.portGuard _port = false
    ∧ (s.m_initialized = true →
        ∃ rest, (NAT.addRedirect U s _port).requests
          = .AddPortMapping _port (some _port) .zilliqa :: rest)
    ∧ (s.m_initialized = true → U.AddPortMapping [] _port (some _port) .zilliqa = 0 →
        NAT.addRedirect U s _port
          = ⟨_port, { s with m_reg := s.m_reg.insert _port },
              [.AddPortMapping _port (some _port) .zilliqa]⟩
        ∧ _port ∈ (NAT.addRedirect U s _port).state.m_reg)
    ∧ (s.m_initialized = true →
        NAT.removeRedirect U s _port
          = ({ s with m_reg := s.m_reg.erase _port }, [.DeletePortMapping _port]))
    ∧ (s.m_initialized = false →
        NAT.addRedirect U s _port = ⟨-1, s, []⟩ ∧ NAT.removeRedirect U s _port = (s, [])) := by
  refine ⟨NAT.portGuard_eq_false _port, NAT.addRedirect_requests U s _port, ?_, ?_, ?_⟩
  · intro hinit hok
    have h : NAT.addRedirect U s _port
        = ⟨_port, { s with m_reg := s.m_reg.insert _port },
            [.AddPortMapping _port (some _port) .zilliqa]⟩ := by
      unfold NAT.addRedirect
      simp only [hinit, NAT.portGuard_eq_false, Bool.not_true, Bool.false_eq_true, if_false, hok,
        if_true]
    refine ⟨h, ?_⟩
    rw [h]
    simp
  · intro hinit
    unfold NAT.removeRedirect
    simp only [hinit, NAT.portGuard_eq_false, Bool.not_true, Bool.false_eq_true, if_false]
  · intro hinit
    constructor
    · unfold NAT.addRedirect
      simp only [hinit, Bool.not_false, if_true]
    · unfold NAT.removeRedirect
      simp only [hinit, Bool.not_false, if_true]

/-- Witness for C20: port `-5` on an initialized `NAT` whose router accepts every
mapping. -/
theorem NAT_port_guard_never_rejects_witness :
    NAT.portGuard (-5) = false
    ∧ NAT.addRedirect acceptingRouter ⟨true, [80]⟩ (-5)
        = ⟨-5, ⟨true, [-5, 80]⟩, [.AddPortMapping (-5) (some (-5)) .zilliqa]⟩
    ∧ (-5 : Int) ∈ (NAT.addRedirect acceptingRouter ⟨true, [80]⟩ (-5)).state.m_reg
    ∧ NAT.removeRedirect acceptingRouter ⟨true, [80]⟩ 70000
        = (⟨true, [80]⟩, [.DeletePortMapping 70000]) :=
  have h := NAT_port_guard_never_rejects acceptingRouter ⟨true, [80]⟩ (-5)
  ⟨h.1, (h.2.2.1 rfl rfl).1, (h.2.2.1 rfl rfl).2,
    (NAT_port_guard_never_rejects acceptingRouter ⟨true, [80]⟩ 70000).2.2.2.1 rfl⟩

end Claims

end Zilliqa
